import Mathlib

/-!
# Verification of the LexSolv privacy vault (de-identification engine)

Shallow embedding of `src/services/privacy_vault.py`: the field classifier,
the tree walker / tokenizer, the in-memory vault store, and the
re-identification substitution, together with proofs of the specified
properties.

Strings are modelled as `List Char` so that the Python string operations
(`lower`, `strip`, `in`, `replace`, regex character stripping) become
executable recursive functions amenable to proof.
-/

set_option maxHeartbeats 1000000

abbrev Str := List Char

/-- ASCII lower-casing of one character, as Python `str.lower` acts on ASCII. -/
def lowerChar (c : Char) : Char :=
  if 65 ≤ c.toNat ∧ c.toNat ≤ 90 then Char.ofNat (c.toNat + 32) else c

/-- Python `s.lower()` (ASCII fragment). -/
def lowerStr (s : Str) : Str := s.map lowerChar

/-- Characters kept by the regex `[^a-z0-9]` stripping in `_classify_field`. -/
def isLowerAlnum (c : Char) : Bool :=
  ('a' ≤ c && c ≤ 'z') || ('0' ≤ c && c ≤ '9')

/-- `re.sub(r"[^a-z0-9]", "", field_name.lower())`. -/
def normaliseStr (s : Str) : Str := (lowerStr s).filter isLowerAlnum

/-- ASCII whitespace, as stripped by Python `str.strip()`. -/
def isPySpace (c : Char) : Bool :=
  c.toNat == 32 || (9 ≤ c.toNat && c.toNat ≤ 13)

/-- Python `s.strip()` (ASCII whitespace fragment). -/
def pyStrip (s : Str) : Str :=
  ((s.dropWhile isPySpace).reverse.dropWhile isPySpace).reverse

/-- Boolean list-prefix test. -/
def isPfxOf : Str → Str → Bool
  | [], _ => true
  | _ :: _, [] => false
  | a :: as, b :: bs => a == b && isPfxOf as bs

/-- Python `t in s` substring containment. -/
def containsSub (t : Str) : Str → Bool
  | [] => t.isEmpty
  | s@(_ :: cs) => isPfxOf t s || containsSub t cs

/-- Left-to-right non-overlapping replacement loop (Python `str.replace`
with a non-empty pattern). -/
def replLoop (old new : Str) : Str → Str
  | [] => []
  | c :: cs =>
    if isPfxOf old (c :: cs) then new ++ replLoop old new (cs.drop (old.length - 1))
    else c :: replLoop old new cs
termination_by s => s.length
decreasing_by
  · simp [List.length_drop]; omega
  · simp

/-- Python `s.replace(old, new)`: with an empty pattern Python interleaves
`new` around every character; with a non-empty pattern it is the
left-to-right non-overlapping scan `replLoop`.  The code only ever calls it
with non-empty tokens. -/
def pyReplace (old new s : Str) : Str :=
  if old.isEmpty then new ++ s.flatMap (fun c => c :: new)
  else replLoop old new s

/-- Association-list lookup with propositional key equality (models Python
`dict` lookup; keys are unique in every dict the code builds). -/
def alookup {β : Type} : List (Str × β) → Str → Option β
  | [], _ => none
  | (k, v) :: rest, key => if k = key then some v else alookup rest key

/-- Remove every binding of a key (models Python `dict.pop` /`del` on a
dict with unique keys). -/
def eraseAll {β : Type} : List (Str × β) → Str → List (Str × β)
  | [], _ => []
  | (k, v) :: rest, key =>
    if k = key then eraseAll rest key else (k, v) :: eraseAll rest key

/-- Decimal digit character (only applied to values below 10). -/
def digitChar : Nat → Char
  | 0 => '0' | 1 => '1' | 2 => '2' | 3 => '3' | 4 => '4'
  | 5 => '5' | 6 => '6' | 7 => '7' | 8 => '8' | 9 => '9'
  | _ => '*'

/-- Decimal digits of a natural number, most significant first. -/
def natDigits (n : Nat) : Str :=
  if h : n < 10 then [digitChar n]
  else natDigits (n / 10) ++ [digitChar (n % 10)]
termination_by n
decreasing_by
  exact Nat.div_lt_self (by omega) (by omega)

/-- Python `f"{n:03d}"`: decimal digits zero-padded to width at least 3. -/
def pad3 (n : Nat) : Str :=
  List.replicate (3 - (natDigits n).length) '0' ++ natDigits n

/-- Value of a digit string (used to prove `pad3` injective). -/
def digitsVal (s : Str) : Nat :=
  s.foldl (fun a c => 10 * a + (c.toNat - 48)) 0

def isDigitChar (c : Char) : Bool := '0' ≤ c && c ≤ '9'

/-! ## JSON data model

The walker treats arbitrary JSON-compatible data; `Json` is the closed
variant type for it. -/

inductive Json where
  | null
  | bool (b : Bool)
  | num (n : Int)
  | str (s : Str)
  | arr (items : List Json)
  | obj (entries : List (Str × Json))

mutual
def jsonBeq : Json → Json → Bool
  | .null, .null => true
  | .bool a, .bool b => a == b
  | .num a, .num b => a == b
  | .str a, .str b => a == b
  | .arr xs, .arr ys => jsonBeqArr xs ys
  | .obj es, .obj fs => jsonBeqObj es fs
  | _, _ => false

def jsonBeqArr : List Json → List Json → Bool
  | [], [] => true
  | x :: xs, y :: ys => jsonBeq x y && jsonBeqArr xs ys
  | _, _ => false

def jsonBeqObj : List (Str × Json) → List (Str × Json) → Bool
  | [], [] => true
  | (k, v) :: es, (k', v') :: fs => k == k' && jsonBeq v v' && jsonBeqObj es fs
  | _, _ => false
end

mutual
theorem jsonBeq_iff : ∀ a b : Json, jsonBeq a b = true ↔ a = b
  | .null, b => by cases b <;> simp [jsonBeq]
  | .bool a, b => by cases b <;> simp [jsonBeq]
  | .num a, b => by cases b <;> simp [jsonBeq]
  | .str a, b => by cases b <;> simp [jsonBeq]
  | .arr xs, b => by
    cases b <;> simp [jsonBeq]
    exact jsonBeqArr_iff xs _
  | .obj es, b => by
    cases b <;> simp [jsonBeq]
    exact jsonBeqObj_iff es _

theorem jsonBeqArr_iff : ∀ xs ys : List Json, jsonBeqArr xs ys = true ↔ xs = ys
  | [], ys => by cases ys <;> simp [jsonBeqArr]
  | x :: xs, ys => by
    cases ys with
    | nil => simp [jsonBeqArr]
    | cons y ys =>
      simp [jsonBeqArr, jsonBeq_iff x y, jsonBeqArr_iff xs ys]

theorem jsonBeqObj_iff : ∀ es fs : List (Str × Json),
    jsonBeqObj es fs = true ↔ es = fs
  | [], fs => by cases fs <;> simp [jsonBeqObj]
  | (k, v) :: es, fs => by
    cases fs with
    | nil => simp [jsonBeqObj]
    | cons q fs =>
      obtain ⟨k', v'⟩ := q
      simp [jsonBeqObj, jsonBeq_iff v v', jsonBeqObj_iff es fs, Prod.mk.injEq,
        and_assoc]
end

instance : DecidableEq Json := fun a b => decidable_of_iff _ (jsonBeq_iff a b)

/-! ## Sensitivity categories and field-detection configuration -/

inductive SensitiveFieldCategory where
  | name
  | address
  | email
  | phone
  | abn
  | bankAccount
  | taxNumber
deriving DecidableEq

def allCategories : List SensitiveFieldCategory :=
  [.name, .address, .email, .phone, .abn, .bankAccount, .taxNumber]

/-- `SENSITIVE_FIELD_PATTERNS`, in the source's (insertion) order. -/
def SENSITIVE_FIELD_PATTERNS : List (SensitiveFieldCategory × List Str) := [
  (.name, ["name".data, "firstname".data, "first_name".data, "lastname".data,
    "last_name".data, "contactname".data, "contact_name".data, "companyname".data,
    "company_name".data, "displayname".data, "display_name".data, "fullname".data,
    "full_name".data, "payeename".data, "payee_name".data, "payername".data,
    "payer_name".data, "vendorname".data, "vendor_name".data, "suppliername".data,
    "supplier_name".data, "directorname".data, "director_name".data,
    "creditorname".data, "creditor_name".data, "legal_name".data, "legalname".data,
    "trading_name".data, "tradingname".data, "practitioner_name".data,
    "practitionername".data, "firm_name".data, "firmname".data, "signer_name".data,
    "signername".data]),
  (.address, ["address".data, "addressline".data, "address_line".data, "street".data,
    "streetaddress".data, "street_address".data, "city".data, "suburb".data,
    "state".data, "postcode".data, "postalcode".data, "postal_code".data,
    "zipcode".data, "zip_code".data, "country".data, "deliveryaddress".data,
    "delivery_address".data, "postaladdress".data, "postal_address".data,
    "firm_address".data, "firmaddress".data]),
  (.email, ["email".data, "emailaddress".data, "email_address".data,
    "contact_email".data, "contactemail".data, "firm_email".data, "firmemail".data]),
  (.phone, ["phone".data, "phonenumber".data, "phone_number".data, "mobile".data,
    "mobilenumber".data, "mobile_number".data, "fax".data, "faxnumber".data,
    "fax_number".data, "telephone".data, "contact_phone".data, "contactphone".data,
    "firm_phone".data, "firmphone".data]),
  (.abn, ["abn".data, "acn".data, "businessnumber".data, "business_number".data]),
  (.bankAccount, ["bankaccount".data, "bank_account".data, "accountnumber".data,
    "account_number".data, "bsb".data, "routingnumber".data, "routing_number".data,
    "iban".data, "swiftcode".data, "swift_code".data]),
  (.taxNumber, ["tfn".data, "taxfilenumber".data, "tax_file_number".data,
    "vatnumber".data, "vat_number".data])]

/-- `TOKEN_PREFIXES`. -/
def catPfx : SensitiveFieldCategory → Str
  | .name => "ENTITY".data
  | .address => "ADDRESS".data
  | .email => "EMAIL".data
  | .phone => "PHONE".data
  | .abn => "ABN".data
  | .bankAccount => "ACCOUNT".data
  | .taxNumber => "TAXREF".data

/-- `FIELD_ALLOWLIST`. -/
def FIELD_ALLOWLIST : List Str :=
  ["account_code".data, "accountcode".data,
   "account_name".data, "accountname".data,
   "source".data, "external_id".data, "externalid".data,
   "id".data, "company_id".data, "companyid".data,
   "transaction_type".data, "transactiontype".data,
   "status".data, "currency".data, "reference".data,
   "category".data, "description".data,
   "notes".data, "reason".data]

def memStr (l : List Str) (s : Str) : Bool := l.any (fun a => a == s)

/-- Inner loop of `_classify_field` over the built-in pattern table. -/
def findCat (normalised : Str) : List (SensitiveFieldCategory × List Str) →
    Option SensitiveFieldCategory
  | [] => none
  | (cat, pats) :: rest =>
    if pats.any (fun p => normalised == normaliseStr p ||
        containsSub (normaliseStr p) normalised)
    then some cat else findCat normalised rest

/-- `DeIdentifier._classify_field`.  `extraFields` is `self.extra_fields`,
i.e. the caller-supplied extra sensitive names already lower-cased by
`__init__`. -/
def classifyField (extraFields : List Str) (fieldName : Str) :
    Option SensitiveFieldCategory :=
  let lower := lowerStr fieldName
  let normalised := normaliseStr fieldName
  if memStr FIELD_ALLOWLIST lower || memStr FIELD_ALLOWLIST normalised then none
  else
    match extraFields.find? (fun extra => containsSub extra normalised) with
    | some _ => some .name
    | none => findCat normalised SENSITIVE_FIELD_PATTERNS

example : classifyField [] "account_code".data = none := by decide
example : classifyField [] "ContactName".data = some .name := by decide
example : classifyField [] "bsb".data = some .bankAccount := by decide
example : classifyField [] "amount".data = none := by decide

/-! ## Vault data structures -/

/-- `VaultEntry`. -/
structure VaultEntry where
  token : Str
  real_value : Str
  category : SensitiveFieldCategory
  field_path : Str
deriving DecidableEq

/-- `DeIdentificationMap` (one session vault).  Timestamps are modelled as
naturals; dicts as association lists with unique keys, appended at the end
on insertion (Python dict insertion order). -/
structure DeIdentificationMap where
  vault_id : Str
  created_at : Nat
  expires_at : Nat
  entity_count : Nat
  entries : List (Str × VaultEntry)
  reverse_index : List (Str × Str)
deriving DecidableEq

/-- The token string `f"{prefix}_{count:03d}"`. -/
def mkToken (category : SensitiveFieldCategory) (count : Nat) : Str :=
  catPfx category ++ '_' :: pad3 count

/-- `DeIdentifier._get_or_create_token`.  The Python truthiness test
`if existing:` is false for both `None` and the empty string. -/
def getOrCreateToken (redactMode : Bool) (realValue : Str)
    (category : SensitiveFieldCategory) (fieldPath : Str)
    (vault : DeIdentificationMap) : Str × DeIdentificationMap :=
  let existing := (alookup vault.reverse_index realValue).getD []
  if existing ≠ [] then (existing, vault)
  else if redactMode then ("[REDACTED]".data, vault)
  else
    let c := vault.entity_count + 1
    let token := mkToken category c
    (token,
      { vault with
        entity_count := c
        entries := vault.entries ++ [(token, ⟨token, realValue, category, fieldPath⟩)]
        reverse_index := vault.reverse_index ++ [(realValue, token)] })

/-- Walker state: the session vault being built plus the per-category
observation counters. -/
structure WalkSt where
  vault : DeIdentificationMap
  counts : SensitiveFieldCategory → Nat

def bump (counts : SensitiveFieldCategory → Nat) (cat : SensitiveFieldCategory) :
    SensitiveFieldCategory → Nat :=
  fun c => if c = cat then counts c + 1 else counts c

/-- The walker's tokenization condition for one dict entry:
`if category and isinstance(value, str) and value.strip():`. -/
def siteInfo (extras : List Str) (key : Str) (value : Json) :
    Option (SensitiveFieldCategory × Str) :=
  match classifyField extras key, value with
  | some cat, .str s => if pyStrip s = [] then none else some (cat, s)
  | _, _ => none

mutual
/-- `DeIdentifier._walk_and_tokenize`. -/
def walkAndTokenize (redactMode : Bool) (extras : List Str) :
    Json → WalkSt → Str → Json × WalkSt
  | .null, st, _ => (.null, st)
  | .bool b, st, _ => (.bool b, st)
  | .num n, st, _ => (.num n, st)
  | .str s, st, _ => (.str s, st)
  | .arr items, st, path =>
    let r := walkArr redactMode extras items st path 0
    (.arr r.1, r.2)
  | .obj entries, st, path =>
    let r := walkObj redactMode extras entries st path
    (.obj r.1, r.2)

/-- The list comprehension in `_walk_and_tokenize` with path suffix
`[index]`. -/
def walkArr (redactMode : Bool) (extras : List Str) :
    List Json → WalkSt → Str → Nat → List Json × WalkSt
  | [], st, _, _ => ([], st)
  | item :: rest, st, path, i =>
    let r1 := walkAndTokenize redactMode extras item st
      (path ++ '[' :: natDigits i ++ [']'])
    let r2 := walkArr redactMode extras rest r1.2 path (i + 1)
    (r1.1 :: r2.1, r2.2)

/-- The dict loop in `_walk_and_tokenize`. -/
def walkObj (redactMode : Bool) (extras : List Str) :
    List (Str × Json) → WalkSt → Str → List (Str × Json) × WalkSt
  | [], st, _ => ([], st)
  | (key, value) :: rest, st, path =>
    let fieldPath := path ++ '.' :: key
    let r1 : Json × WalkSt :=
      match siteInfo extras key value with
      | some cs =>
        let tk := getOrCreateToken redactMode (pyStrip cs.2) cs.1 fieldPath st.vault
        (Json.str tk.1, ⟨tk.2, bump st.counts cs.1⟩)
      | none => walkAndTokenize redactMode extras value st fieldPath
    let r2 := walkObj redactMode extras rest r1.2 path
    ((key, r1.1) :: r2.1, r2.2)
end

/-- The module-level `_vault_store` dict, passed explicitly. -/
abbrev Store := List (Str × DeIdentificationMap)

/-- `DeIdentificationResult`. -/
structure DeIdentificationResult where
  vault_id : Str
  sanitized_data : Json
  field_counts : SensitiveFieldCategory → Nat
  total_tokenized : Nat

def sumCounts (counts : SensitiveFieldCategory → Nat) : Nat :=
  allCategories.foldl (fun a cat => a + counts cat) 0

/-- `DeIdentifier.de_identify`.  The randomly generated vault id and the
current time are inputs of the model; `extraSensitiveFields` is the raw
constructor argument (lower-cased here, as `__init__` does). -/
def deIdentify (ttlSeconds : Nat) (extraSensitiveFields : List Str)
    (redactMode : Bool) (data : Json) (vaultId : Str) (now : Nat)
    (store : Store) : DeIdentificationResult × Store :=
  let extras := extraSensitiveFields.map lowerStr
  let vault0 : DeIdentificationMap := ⟨vaultId, now, now + ttlSeconds, 0, [], []⟩
  let r := walkAndTokenize redactMode extras data ⟨vault0, fun _ => 0⟩ "$".data
  (⟨vaultId, r.1, r.2.counts, sumCounts r.2.counts⟩, (vaultId, r.2.vault) :: store)

/-- The two failure conditions of `re_identify` (raised as `ValueError`s in
the source). -/
inductive ReIdentError where
  | notFound
  | expired
deriving DecidableEq

/-- The sort key `key=lambda pair: -len(pair[0])`: descending token
length. -/
def tokenLenGE (a b : Str × Str) : Prop := b.1.length ≤ a.1.length

instance : DecidableRel tokenLenGE := fun a b => Nat.decLe b.1.length a.1.length

instance : IsTotal (Str × Str) tokenLenGE :=
  ⟨fun a b => (Nat.le_total b.1.length a.1.length).elim Or.inl Or.inr⟩

instance : IsTrans (Str × Str) tokenLenGE :=
  ⟨fun _ _ _ hab hbc => Nat.le_trans hbc hab⟩

/-- `_replace_tokens_in_string`. -/
def replaceTokensInString (text : Str) (tokenPairs : List (Str × Str)) : Str :=
  tokenPairs.foldl
    (fun result p => if containsSub p.1 result then pyReplace p.1 p.2 result else result)
    text

mutual
/-- `_walk_and_replace`. -/
def walkAndReplace : Json → List (Str × Str) → Json
  | .null, _ => .null
  | .bool b, _ => .bool b
  | .num n, _ => .num n
  | .str s, ps => .str (replaceTokensInString s ps)
  | .arr items, ps => .arr (walkReplaceArr items ps)
  | .obj entries, ps => .obj (walkReplaceObj entries ps)

def walkReplaceArr : List Json → List (Str × Str) → List Json
  | [], _ => []
  | j :: js, ps => walkAndReplace j ps :: walkReplaceArr js ps

def walkReplaceObj : List (Str × Json) → List (Str × Str) → List (Str × Json)
  | [], _ => []
  | (k, v) :: rest, ps => (k, walkAndReplace v ps) :: walkReplaceObj rest ps
end

/-- `re_identify`.  Returns the outcome together with the store after the
call (the vault is popped on expiry detection and, by default, after a
successful substitution). -/
def reIdentify (analysisOutput : Json) (vaultId : Str) (destroyAfter : Bool)
    (now : Nat) (store : Store) : Except ReIdentError Json × Store :=
  match alookup store vaultId with
  | none => (.error .notFound, store)
  | some vault =>
    if vault.expires_at < now then (.error .expired, eraseAll store vaultId)
    else
      let tokenPairs := List.insertionSort tokenLenGE
        (vault.entries.map (fun te => (te.2.token, te.2.real_value)))
      (.ok (walkAndReplace analysisOutput tokenPairs),
       if destroyAfter then eraseAll store vaultId else store)

/-! ## Lemmas about the string primitives -/

theorem isPfxOf_iff {t s : Str} : isPfxOf t s = true ↔ t <+: s := by
  induction t generalizing s with
  | nil => simp [isPfxOf]
  | cons a as ih =>
    cases s with
    | nil => simp [isPfxOf]
    | cons b bs => simp [isPfxOf, ih, List.cons_prefix_cons]

theorem containsSub_iff {t s : Str} : containsSub t s = true ↔ t <:+: s := by
  induction s with
  | nil => simp [containsSub, List.isEmpty_iff]
  | cons c cs ih => simp [containsSub, isPfxOf_iff, ih, List.infix_cons_iff]

theorem containsSub_length_le {t s : Str} (h : containsSub t s = true) :
    t.length ≤ s.length :=
  (containsSub_iff.mp h).length_le

theorem containsSub_eq_of_length {t s : Str} (h : containsSub t s = true)
    (hl : s.length ≤ t.length) : t = s :=
  (containsSub_iff.mp h).sublist.eq_of_length
    (Nat.le_antisymm (containsSub_length_le h) hl)

theorem containsSub_false_of_ge {t s : Str} (h : s.length ≤ t.length) (hne : t ≠ s) :
    containsSub t s = false := by
  cases hc : containsSub t s with
  | false => rfl
  | true => exact absurd (containsSub_eq_of_length hc h) hne

theorem containsSub_append_left (t s : Str) : containsSub t (t ++ s) = true :=
  containsSub_iff.mpr ⟨[], s, by simp⟩

theorem containsSub_append_right (s t : Str) : containsSub t (s ++ t) = true :=
  containsSub_iff.mpr ⟨s, [], by simp⟩

theorem containsSub_self (t : Str) : containsSub t t = true := by
  have := containsSub_append_left t []
  simpa using this

/-- A pattern holding a character that fails `p` never occurs inside a string
whose characters all satisfy `p`. -/
theorem containsSub_false_of_filtered {t s : Str} {p : Char → Bool} {c : Char}
    (hc : c ∈ t) (hpc : p c = false) (hs : ∀ x ∈ s, p x = true) :
    containsSub t s = false := by
  cases hcs : containsSub t s with
  | false => rfl
  | true =>
    have hmem : c ∈ s := (containsSub_iff.mp hcs).subset hc
    rw [hs c hmem] at hpc
    cases hpc

theorem replLoop_not_contains {old s : Str} (new : Str)
    (h : containsSub old s = false) : replLoop old new s = s := by
  induction s with
  | nil => simp [replLoop]
  | cons c cs ih =>
    have h' : isPfxOf old (c :: cs) = false ∧ containsSub old cs = false := by
      simpa [containsSub] using h
    rw [replLoop, if_neg (by simp [h'.1]), ih h'.2]

theorem replLoop_append_pfx {old : Str} (new s : Str) (h : old ≠ []) :
    replLoop old new (old ++ s) = new ++ replLoop old new s := by
  cases old with
  | nil => exact absurd rfl h
  | cons a as =>
    have hp : isPfxOf (a :: as) (a :: (as ++ s)) = true :=
      isPfxOf_iff.mpr (by simpa using List.prefix_append (a :: as) s)
    rw [List.cons_append, replLoop, if_pos (by simp [hp])]
    have hlen : (a :: as).length - 1 = as.length := by simp
    rw [hlen, List.drop_left]

def uniqueHead : Str → Bool
  | [] => false
  | c :: cs => cs.all (fun x => x != c)

theorem uniqueHead_ne_nil {t : Str} (h : uniqueHead t = true) : t ≠ [] := by
  cases t with
  | nil => cases h
  | cons c cs => simp

/-- One replacement pass over `s ++ t` only fires on the final occurrence of
`t`, provided `t` does not occur in `s` and the first character of `t` does
not recur inside `t` (so no occurrence can straddle the boundary). -/
theorem replLoop_append_sfx {t : Str} (r : Str) (hu : uniqueHead t = true) :
    ∀ s : Str, containsSub t s = false → replLoop t r (s ++ t) = s ++ r := by
  obtain ⟨c0, t', ht⟩ : ∃ c0 t', t = c0 :: t' := by
    cases t with
    | nil => cases hu
    | cons c cs => exact ⟨c, cs, rfl⟩
  intro s
  induction s with
  | nil =>
    intro _
    have h1 : replLoop t r (t ++ []) = r ++ replLoop t r [] :=
      replLoop_append_pfx r [] (by simp [ht])
    simpa [replLoop] using h1
  | cons c s' ih =>
    intro h
    have h' : containsSub t s' = false := by
      have h2 : isPfxOf t (c :: s') = false ∧ containsSub t s' = false := by
        simpa [containsSub] using h
      exact h2.2
    have hp : isPfxOf t (c :: (s' ++ t)) = false := by
      cases hpc : isPfxOf t (c :: (s' ++ t)) with
      | false => rfl
      | true =>
        exfalso
        have hpre : t <+: (c :: s') ++ t := by simpa using isPfxOf_iff.mp hpc
        by_cases hle : t.length ≤ (c :: s').length
        · have h2 : (c :: s') <+: (c :: s') ++ t := List.prefix_append _ _
          have h3 : t <+: c :: s' := List.prefix_of_prefix_length_le hpre h2 hle
          have h4 : containsSub t (c :: s') = true := containsSub_iff.mpr h3.isInfix
          rw [h4] at h
          cases h
        · have hle' : (c :: s').length ≤ t.length :=
            Nat.le_of_lt (Nat.lt_of_not_le hle)
          have h2 : (c :: s') <+: (c :: s') ++ t := List.prefix_append _ _
          have h3 : (c :: s') <+: t := List.prefix_of_prefix_length_le h2 hpre hle'
          obtain ⟨rest, hrest⟩ := h3
          have hrest_ne : rest ≠ [] := by
            intro hnil
            apply hle
            rw [hnil, List.append_nil] at hrest
            rw [hrest]
          obtain ⟨u, hu2⟩ := hpre
          rw [← hrest, List.append_assoc] at hu2
          have hcan : rest ++ u = (c :: s') ++ rest := List.append_cancel_left hu2
          obtain ⟨rc, rest', hrc⟩ : ∃ rc rest', rest = rc :: rest' := by
            cases rest with
            | nil => exact absurd rfl hrest_ne
            | cons x xs => exact ⟨x, xs, rfl⟩
          subst hrc
          have h4 : rc :: (rest' ++ u) = c :: (s' ++ rc :: rest') := by
            simpa using hcan
          have hrc_c : rc = c := by
            injection h4 with h41 h42
          have hct : c0 :: t' = c :: (s' ++ rc :: rest') := by
            rw [← ht, ← hrest]
            simp
          have hc0c : c0 = c := by injection hct with a b
          have ht' : t' = s' ++ rc :: rest' := by injection hct with a b
          have hmem : c0 ∈ t' := by
            rw [ht', hc0c, ← hrc_c]
            exact List.mem_append_right _ (List.mem_cons_self _ _)
          have hall : ∀ x ∈ t', ¬ x = c0 := by
            have h6 := hu
            rw [ht] at h6
            simpa [uniqueHead] using h6
          exact hall c0 hmem rfl
    rw [List.cons_append, replLoop, if_neg (by simp [hp]), ih h']
    rfl

/-! ## Lemmas about the replacement fold and the sorted pair list -/

theorem rts_cons (s : Str) (p : Str × Str) (ps : List (Str × Str)) :
    replaceTokensInString s (p :: ps) =
      replaceTokensInString
        (if containsSub p.1 s then pyReplace p.1 p.2 s else s) ps := rfl

theorem rts_append (s : Str) (A B : List (Str × Str)) :
    replaceTokensInString s (A ++ B) =
      replaceTokensInString (replaceTokensInString s A) B := by
  simp [replaceTokensInString, List.foldl_append]

theorem rts_no_op {pairs : List (Str × Str)} {s : Str}
    (h : ∀ p ∈ pairs, containsSub p.1 s = false) :
    replaceTokensInString s pairs = s := by
  induction pairs with
  | nil => rfl
  | cons p ps ih =>
    rw [rts_cons, if_neg (by simp [h p (List.mem_cons_self p ps)])]
    exact ih (fun q hq => h q (List.mem_cons_of_mem p hq))

theorem pyReplace_self {t : Str} (r : Str) (ht : t ≠ []) : pyReplace t r t = r := by
  rw [pyReplace, if_neg (by simp [ht])]
  have h1 : replLoop t r (t ++ []) = r ++ replLoop t r [] := replLoop_append_pfx r [] ht
  simpa [replLoop] using h1

/-- Folding a pair list that contains `(t, r)`, over the exact string `t`:
pairs before it do not touch `t`, the pair replaces it with `r`, pairs after
it do not touch `r`. -/
theorem rts_hit {A B : List (Str × Str)} {t r : Str}
    (hA : ∀ p ∈ A, containsSub p.1 t = false) (ht : t ≠ [])
    (hB : ∀ p ∈ B, containsSub p.1 r = false) :
    replaceTokensInString t (A ++ (t, r) :: B) = r := by
  rw [rts_append, rts_no_op hA, rts_cons]
  rw [if_pos (by simp [containsSub_self t])]
  rw [pyReplace_self r ht]
  exact rts_no_op hB

/-- Same, over a string with `t` as a suffix. -/
theorem rts_sfx {A B : List (Str × Str)} {t r s0 : Str}
    (hu : uniqueHead t = true)
    (hA : ∀ p ∈ A, containsSub p.1 (s0 ++ t) = false)
    (h0 : containsSub t s0 = false)
    (hB : ∀ p ∈ B, containsSub p.1 (s0 ++ r) = false) :
    replaceTokensInString (s0 ++ t) (A ++ (t, r) :: B) = s0 ++ r := by
  rw [rts_append, rts_no_op hA, rts_cons]
  rw [if_pos (by simp [containsSub_append_right s0 t])]
  rw [pyReplace, if_neg (by simp [uniqueHead_ne_nil hu])]
  rw [replLoop_append_sfx r hu s0 h0]
  exact rts_no_op hB

/-- Decomposition of the descending-length sorted pair list around a chosen
member: everything before it has a token at least as long and a different
token; everything is drawn from the original pairs. -/
theorem sortedPairs_decomp {pairs : List (Str × Str)} {x : Str × Str}
    (hnd : (pairs.map Prod.fst).Nodup) (hx : x ∈ pairs) :
    ∃ A B, List.insertionSort tokenLenGE pairs = A ++ x :: B ∧
      (∀ a ∈ A, x.1.length ≤ a.1.length ∧ a.1 ≠ x.1) ∧
      (∀ b ∈ B, b ∈ pairs ∧ b.1 ≠ x.1) ∧ (∀ a ∈ A, a ∈ pairs) := by
  have hperm := List.perm_insertionSort tokenLenGE pairs
  have hmem : x ∈ List.insertionSort tokenLenGE pairs := hperm.mem_iff.mpr hx
  obtain ⟨A, B, hAB⟩ := List.append_of_mem hmem
  have hsorted := List.sorted_insertionSort tokenLenGE pairs
  rw [hAB] at hsorted
  have hnd' : ((A ++ x :: B).map Prod.fst).Nodup := by
    rw [← hAB]
    exact ((hperm.map Prod.fst).nodup_iff).mpr hnd
  rw [List.map_append, List.map_cons] at hnd'
  have hndA := (List.nodup_append.mp hnd')
  have hx_notA : x.1 ∉ A.map Prod.fst := fun hmemA =>
    hndA.2.2 hmemA (List.mem_cons_self _ _)
  have hx_notB : x.1 ∉ B.map Prod.fst := by
    have := hndA.2.1
    rw [List.nodup_cons] at this
    exact this.1
  refine ⟨A, B, hAB, ?_, ?_, ?_⟩
  · intro a ha
    constructor
    · have hpw := List.pairwise_append.mp hsorted
      exact hpw.2.2 a ha x (List.mem_cons_self _ _)
    · intro hEq
      exact hx_notA (hEq ▸ List.mem_map_of_mem Prod.fst ha)
  · intro b hb
    constructor
    · exact hperm.mem_iff.mp (hAB ▸ List.mem_append_right A (List.mem_cons_of_mem x hb))
    · intro hEq
      exact hx_notB (hEq ▸ List.mem_map_of_mem Prod.fst hb)
  · intro a ha
    exact hperm.mem_iff.mp (hAB ▸ List.mem_append_left _ ha)

/-- Replacing over the sorted pair list maps a stored token exactly to its
original, provided no token occurs inside the original. -/
theorem rts_token_sorted {pairs : List (Str × Str)} {t r : Str}
    (hnd : (pairs.map Prod.fst).Nodup) (hmem : (t, r) ∈ pairs) (ht : t ≠ [])
    (hshort : ∀ p ∈ pairs, containsSub p.1 r = false) :
    replaceTokensInString t (List.insertionSort tokenLenGE pairs) = r := by
  obtain ⟨A, B, hAB, hA, hB, hApairs⟩ := sortedPairs_decomp hnd hmem
  rw [hAB]
  refine rts_hit ?_ ht ?_
  · intro a ha
    exact containsSub_false_of_ge (hA a ha).1 (hA a ha).2
  · intro p hp
    exact hshort p (hB p hp).1

/-- Replacing over the sorted pair list leaves a string free of all tokens
unchanged. -/
theorem rts_sorted_no_op {pairs : List (Str × Str)} {s : Str}
    (h : ∀ p ∈ pairs, containsSub p.1 s = false) :
    replaceTokensInString s (List.insertionSort tokenLenGE pairs) = s :=
  rts_no_op (fun p hp => h p ((List.perm_insertionSort tokenLenGE pairs).mem_iff.mp hp))

/-! ## Lemmas about token formatting -/

theorem isDigitChar_digitChar {k : Nat} (hk : k < 10) :
    isDigitChar (digitChar k) = true := by
  interval_cases k <;> decide

theorem digitChar_toNat {k : Nat} (hk : k < 10) : (digitChar k).toNat - 48 = k := by
  interval_cases k <;> decide

theorem natDigits_ne_nil (n : Nat) : natDigits n ≠ [] := by
  rw [natDigits]
  split <;> simp

theorem natDigits_digits (n : Nat) : ∀ c ∈ natDigits n, isDigitChar c = true := by
  induction n using Nat.strong_induction_on with
  | _ n ih =>
    rw [natDigits]
    split
    next h =>
      intro c hc
      rw [List.mem_singleton.mp hc]
      exact isDigitChar_digitChar h
    next h =>
      intro c hc
      rcases List.mem_append.mp hc with h1 | h1
      · exact ih (n / 10) (Nat.div_lt_self (by omega) (by omega)) c h1
      · rw [List.mem_singleton.mp h1]
        exact isDigitChar_digitChar (Nat.mod_lt _ (by omega))

theorem digitsVal_singleton (c : Char) : digitsVal [c] = c.toNat - 48 := by
  simp [digitsVal]

theorem digitsVal_append_digit (l : Str) (c : Char) :
    digitsVal (l ++ [c]) = 10 * digitsVal l + (c.toNat - 48) := by
  simp [digitsVal, List.foldl_append]

theorem digitsVal_natDigits (n : Nat) : digitsVal (natDigits n) = n := by
  induction n using Nat.strong_induction_on with
  | _ n ih =>
    rw [natDigits]
    split
    next h =>
      rw [digitsVal_singleton, digitChar_toNat h]
    next h =>
      rw [digitsVal_append_digit, ih (n / 10) (Nat.div_lt_self (by omega) (by omega)),
        digitChar_toNat (Nat.mod_lt _ (by omega))]
      omega

theorem digitsVal_replicate_zero (k : Nat) (l : Str) :
    digitsVal (List.replicate k '0' ++ l) = digitsVal l := by
  induction k with
  | zero => simp
  | succ k ih =>
    rw [List.replicate_succ, List.cons_append]
    show List.foldl _ (10 * 0 + ('0'.toNat - 48)) _ = _
    have h0 : (10 * 0 + ('0'.toNat - 48)) = 0 := by decide
    rw [h0]
    exact ih

theorem digitsVal_pad3 (n : Nat) : digitsVal (pad3 n) = n := by
  rw [pad3, digitsVal_replicate_zero, digitsVal_natDigits]

theorem pad3_inj {m n : Nat} (h : pad3 m = pad3 n) : m = n := by
  have h2 := congrArg digitsVal h
  rwa [digitsVal_pad3, digitsVal_pad3] at h2

theorem pad3_ne_nil (n : Nat) : pad3 n ≠ [] := by
  rw [pad3]
  intro h
  rw [List.append_eq_nil] at h
  exact natDigits_ne_nil n h.2

theorem pad3_digits (n : Nat) : ∀ c ∈ pad3 n, isDigitChar c = true := by
  rw [pad3]
  intro c hc
  rcases List.mem_append.mp hc with h1 | h1
  · rw [List.eq_of_mem_replicate h1]
    decide
  · exact natDigits_digits n c h1

theorem mkToken_ne_nil (cat : SensitiveFieldCategory) (i : Nat) :
    mkToken cat i ≠ [] := by
  rw [mkToken]
  simp

/-- The maximal digit suffix of a token string. -/
def digitSfx (t : Str) : Str := (t.reverse.takeWhile isDigitChar).reverse

theorem takeWhile_all_append {p : Char → Bool} {l1 : Str} {a : Char} (l2 : Str)
    (h1 : ∀ c ∈ l1, p c = true) (ha : p a = false) :
    (l1 ++ a :: l2).takeWhile p = l1 := by
  induction l1 with
  | nil => simp [List.takeWhile_cons, ha]
  | cons x xs ih =>
    rw [List.cons_append, List.takeWhile_cons, h1 x (List.mem_cons_self _ _)]
    rw [ih (fun c hc => h1 c (List.mem_cons_of_mem _ hc))]
    simp

theorem digitSfx_mkToken (cat : SensitiveFieldCategory) (i : Nat) :
    digitSfx (mkToken cat i) = pad3 i := by
  rw [mkToken, digitSfx, List.reverse_append, List.reverse_cons]
  rw [List.append_assoc, List.singleton_append]
  rw [takeWhile_all_append _ (fun c hc => pad3_digits i c (List.mem_reverse.mp hc))
    (by decide : isDigitChar '_' = false)]
  exact List.reverse_reverse _

theorem mkToken_count_inj {cat cat' : SensitiveFieldCategory} {i j : Nat}
    (h : mkToken cat i = mkToken cat' j) : i = j := by
  have h2 := congrArg digitSfx h
  rw [digitSfx_mkToken, digitSfx_mkToken] at h2
  exact pad3_inj h2

/-- Shape of the tokens the tokenizer mints: category prefix, underscore,
canonical zero-padded decimal of a positive counter value. -/
def isMintedTok (t : Str) : Bool :=
  allCategories.any (fun cat =>
    isPfxOf (catPfx cat ++ ['_']) t &&
      (!(t.drop (catPfx cat ++ ['_']).length).isEmpty &&
       (t.drop (catPfx cat ++ ['_']).length).all isDigitChar &&
       decide (1 ≤ digitsVal (t.drop (catPfx cat ++ ['_']).length)) &&
       (pad3 (digitsVal (t.drop (catPfx cat ++ ['_']).length)) ==
         t.drop (catPfx cat ++ ['_']).length)))

theorem isMintedTok_mkToken (cat : SensitiveFieldCategory) {i : Nat} (hi : 1 ≤ i) :
    isMintedTok (mkToken cat i) = true := by
  rw [isMintedTok, List.any_eq_true]
  refine ⟨cat, by cases cat <;> simp [allCategories], ?_⟩
  have hshape : mkToken cat i = (catPfx cat ++ ['_']) ++ pad3 i := by
    rw [mkToken, List.append_assoc, List.singleton_append]
  rw [hshape, List.drop_left]
  have h1 : isPfxOf (catPfx cat ++ ['_']) ((catPfx cat ++ ['_']) ++ pad3 i) = true :=
    isPfxOf_iff.mpr (List.prefix_append _ _)
  rw [h1, digitsVal_pad3]
  simp [pad3_ne_nil i, hi, List.all_eq_true]
  exact pad3_digits i

/-! ## Association list lemmas -/

theorem alookup_append_some {β : Type} {l1 : List (Str × β)} {k : Str} {v : β}
    (h : alookup l1 k = some v) (l2 : List (Str × β)) :
    alookup (l1 ++ l2) k = some v := by
  induction l1 with
  | nil => cases h
  | cons p ps ih =>
    obtain ⟨pk, pv⟩ := p
    rw [List.cons_append, alookup]
    rw [alookup] at h
    by_cases hk : pk = k
    · rwa [if_pos hk] at h ⊢
    · rw [if_neg hk] at h ⊢
      exact ih h

theorem alookup_append_none {β : Type} {l1 : List (Str × β)} {k : Str}
    (h : alookup l1 k = none) (l2 : List (Str × β)) :
    alookup (l1 ++ l2) k = alookup l2 k := by
  induction l1 with
  | nil => rfl
  | cons p ps ih =>
    obtain ⟨pk, pv⟩ := p
    rw [List.cons_append, alookup]
    rw [alookup] at h
    by_cases hk : pk = k
    · rw [if_pos hk] at h
      cases h
    · rw [if_neg hk] at h
      rw [if_neg hk]
      exact ih h

theorem alookup_eq_none {β : Type} {l : List (Str × β)} {k : Str} :
    alookup l k = none ↔ k ∉ l.map Prod.fst := by
  induction l with
  | nil => simp [alookup]
  | cons p ps ih =>
    obtain ⟨pk, pv⟩ := p
    rw [alookup, List.map_cons]
    by_cases hk : pk = k
    · subst hk
      rw [if_pos rfl]
      constructor
      · intro h
        cases h
      · intro h
        exact absurd (List.mem_cons_self _ _) h
    · rw [if_neg hk, List.mem_cons, ih]
      constructor
      · intro h h2
        rcases h2 with h2 | h2
        · exact hk h2.symm
        · exact h h2
      · intro h h2
        exact h (Or.inr h2)

theorem alookup_mem {β : Type} {l : List (Str × β)} {k : Str} {v : β}
    (h : alookup l k = some v) : (k, v) ∈ l := by
  induction l with
  | nil => cases h
  | cons p ps ih =>
    obtain ⟨pk, pv⟩ := p
    rw [alookup] at h
    by_cases hk : pk = k
    · rw [if_pos hk] at h
      injection h with h'
      rw [← hk, ← h']
      exact List.mem_cons_self _ _
    · rw [if_neg hk] at h
      exact List.mem_cons_of_mem _ (ih h)

theorem mem_alookup {β : Type} {l : List (Str × β)} {k : Str} {v : β}
    (hnd : (l.map Prod.fst).Nodup) (h : (k, v) ∈ l) : alookup l k = some v := by
  induction l with
  | nil => cases h
  | cons p ps ih =>
    obtain ⟨pk, pv⟩ := p
    rw [List.map_cons, List.nodup_cons] at hnd
    rcases List.mem_cons.mp h with h1 | h1
    · rw [alookup, if_pos (congrArg Prod.fst h1).symm]
      injection h1 with h2 h3
      rw [h3]
    · have hk : pk ≠ k := by
        intro hEq
        apply hnd.1
        rw [hEq]
        exact List.mem_map.mpr ⟨(k, v), h1, rfl⟩
      rw [alookup, if_neg hk]
      exact ih hnd.2 h1

theorem alookup_eraseAll {β : Type} (l : List (Str × β)) (k : Str) :
    alookup (eraseAll l k) k = none := by
  induction l with
  | nil => rfl
  | cons p ps ih =>
    obtain ⟨pk, pv⟩ := p
    rw [eraseAll]
    by_cases hk : pk = k
    · rw [if_pos hk]
      exact ih
    · rw [if_neg hk, alookup, if_neg hk]
      exact ih

/-! ## Vault invariants -/

/-- The vault grows monotonically during a walk: entries and reverse index
are append-only, the entity counter never decreases. -/
def VaultExt (v v' : DeIdentificationMap) : Prop :=
  (∃ l, v'.entries = v.entries ++ l) ∧
  (∃ l, v'.reverse_index = v.reverse_index ++ l) ∧
  v.entity_count ≤ v'.entity_count ∧
  v'.expires_at = v.expires_at

theorem VaultExt.rfl (v : DeIdentificationMap) : VaultExt v v :=
  ⟨⟨[], by simp⟩, ⟨[], by simp⟩, Nat.le_refl _, Eq.refl _⟩

theorem VaultExt.trans {a b c : DeIdentificationMap}
    (h1 : VaultExt a b) (h2 : VaultExt b c) : VaultExt a c := by
  obtain ⟨⟨l1, hl1⟩, ⟨m1, hm1⟩, hc1, he1⟩ := h1
  obtain ⟨⟨l2, hl2⟩, ⟨m2, hm2⟩, hc2, he2⟩ := h2
  exact ⟨⟨l1 ++ l2, by rw [hl2, hl1, List.append_assoc]⟩,
    ⟨m1 ++ m2, by rw [hm2, hm1, List.append_assoc]⟩, Nat.le_trans hc1 hc2,
    he2.trans he1⟩

theorem VaultExt.lookup_reverse {v v' : DeIdentificationMap} (h : VaultExt v v')
    {x : Str} {y : Str} (hl : alookup v.reverse_index x = some y) :
    alookup v'.reverse_index x = some y := by
  obtain ⟨_, ⟨m, hm⟩, _⟩ := h
  rw [hm]
  exact alookup_append_some hl m

theorem VaultExt.mem_entries {v v' : DeIdentificationMap} (h : VaultExt v v')
    {p : Str × VaultEntry} (hm : p ∈ v.entries) : p ∈ v'.entries := by
  obtain ⟨⟨l, hl⟩, _, _⟩ := h
  rw [hl]
  exact List.mem_append_left _ hm

/-- Well-formedness of a session vault built by the tokenizer. -/
structure VaultWF (v : DeIdentificationMap) : Prop where
  keyEq : ∀ p ∈ v.entries, p.2.token = p.1
  shape : ∀ p ∈ v.entries, ∃ cat i, 1 ≤ i ∧ i ≤ v.entity_count ∧ p.1 = mkToken cat i
  fwd : ∀ p ∈ v.entries, alookup v.reverse_index p.2.real_value = some p.1
  bwd : ∀ q ∈ v.reverse_index, ∃ e, (q.2, e) ∈ v.entries ∧ e.real_value = q.1
  ndE : (v.entries.map Prod.fst).Nodup
  ndR : (v.reverse_index.map Prod.fst).Nodup

theorem vaultWF_init (vid : Str) (now exp : Nat) :
    VaultWF ⟨vid, now, exp, 0, [], []⟩ :=
  ⟨by simp, by simp, by simp, by simp, by simp, by simp⟩

theorem tok_fresh {v : DeIdentificationMap} (hwf : VaultWF v)
    (cat : SensitiveFieldCategory) :
    mkToken cat (v.entity_count + 1) ∉ v.entries.map Prod.fst := by
  intro hmem
  obtain ⟨p, hp, hpe⟩ := List.mem_map.mp hmem
  obtain ⟨c', i, hi1, hi2, hEq⟩ := hwf.shape p hp
  have : i = v.entity_count + 1 := mkToken_count_inj (hEq ▸ hpe)
  omega

/-! ## Tokenizer lemmas -/

/-- A reverse-index hit returns the stored token unchanged, regardless of the
category (and of the mode): the lookup happens before the category or the
redact flag is consulted. -/
theorem getOrCreate_hit {v : DeIdentificationMap} {realValue : Str}
    (rm : Bool) (cat : SensitiveFieldCategory) (path : Str)
    (h : (alookup v.reverse_index realValue).getD [] ≠ []) :
    getOrCreateToken rm realValue cat path v =
      ((alookup v.reverse_index realValue).getD [], v) := by
  rw [getOrCreateToken]
  simp only [h]
  rw [if_pos h]

/-- In redact mode, with an empty reverse index (which stays empty), the
tokenizer returns the sentinel and records nothing. -/
theorem getOrCreate_redact {v : DeIdentificationMap} {realValue : Str}
    (cat : SensitiveFieldCategory) (path : Str) (h : v.reverse_index = []) :
    getOrCreateToken true realValue cat path v = ("[REDACTED]".data, v) := by
  rw [getOrCreateToken, h]
  simp [alookup]

/-- Full specification of the tokenizer in normal mode: well-formedness and
monotonicity of the vault, and the binding of the returned token. -/
theorem getOrCreate_wf {v : DeIdentificationMap} (hwf : VaultWF v)
    (realValue : Str) (cat : SensitiveFieldCategory) (path : Str) :
    VaultWF (getOrCreateToken false realValue cat path v).2 ∧
    VaultExt v (getOrCreateToken false realValue cat path v).2 ∧
    alookup (getOrCreateToken false realValue cat path v).2.reverse_index
      realValue = some (getOrCreateToken false realValue cat path v).1 ∧
    (∃ e, ((getOrCreateToken false realValue cat path v).1, e) ∈
        (getOrCreateToken false realValue cat path v).2.entries ∧
      e.real_value = realValue) ∧
    (∃ c i, 1 ≤ i ∧ (getOrCreateToken false realValue cat path v).1 = mkToken c i) := by
  by_cases hx : (alookup v.reverse_index realValue).getD [] ≠ []
  · rw [getOrCreate_hit false cat path hx]
    obtain ⟨tk, htk⟩ : ∃ tk, alookup v.reverse_index realValue = some tk := by
      cases hl : alookup v.reverse_index realValue with
      | none => rw [hl] at hx; simp at hx
      | some tk => exact ⟨tk, rfl⟩
    have hgd : (alookup v.reverse_index realValue).getD [] = tk := by
      rw [htk]; rfl
    rw [hgd]
    obtain ⟨e, he, hereal⟩ := hwf.bwd (realValue, tk) (alookup_mem htk)
    obtain ⟨c', i, hi1, _, hsh⟩ := hwf.shape (tk, e) he
    exact ⟨hwf, VaultExt.rfl v, by dsimp only; rw [htk], ⟨e, he, hereal⟩, ⟨c', i, hi1, hsh⟩⟩
  · -- miss: mint a fresh token
    have hnone : alookup v.reverse_index realValue = none := by
      cases hl : alookup v.reverse_index realValue with
      | none => rfl
      | some tk =>
        exfalso
        by_cases htk : tk = []
        · subst htk
          obtain ⟨e, he, _⟩ := hwf.bwd (realValue, []) (alookup_mem hl)
          obtain ⟨c', i, _, _, hsh⟩ := hwf.shape ([], e) he
          exact mkToken_ne_nil c' i hsh.symm
        · rw [hl] at hx
          exact hx (by simpa using htk)
    have hxe : ¬ ((alookup v.reverse_index realValue).getD [] ≠ []) := hx
    rw [getOrCreateToken]
    rw [if_neg hxe, if_neg (by simp : ¬ (false = true))]
    dsimp only
    set c := v.entity_count + 1 with hc
    set tok := mkToken cat c with htokdef
    set newE : VaultEntry := ⟨tok, realValue, cat, path⟩ with hnewE
    have hfresh : tok ∉ v.entries.map Prod.fst := tok_fresh hwf cat
    have hrfresh : realValue ∉ v.reverse_index.map Prod.fst :=
      alookup_eq_none.mp hnone
    have hlookupE : alookup v.entries tok = none := alookup_eq_none.mpr hfresh
    refine ⟨⟨?_, ?_, ?_, ?_, ?_, ?_⟩, ?_, ?_, ?_, ?_⟩
    · intro p hp
      rcases List.mem_append.mp hp with h1 | h1
      · exact hwf.keyEq p h1
      · rw [List.mem_singleton.mp h1]
    · intro p hp
      rcases List.mem_append.mp hp with h1 | h1
      · obtain ⟨c', i, hi1, hi2, hsh⟩ := hwf.shape p h1
        exact ⟨c', i, hi1, by show i ≤ c; omega, hsh⟩
      · rw [List.mem_singleton.mp h1]
        exact ⟨cat, c, by omega, by simp, rfl⟩
    · intro p hp
      rcases List.mem_append.mp hp with h1 | h1
      · exact alookup_append_some (hwf.fwd p h1) _
      · rw [List.mem_singleton.mp h1]
        rw [alookup_append_none hnone]
        rw [alookup, if_pos rfl]
    · intro q hq
      rcases List.mem_append.mp hq with h1 | h1
      · obtain ⟨e, he, hereal⟩ := hwf.bwd q h1
        exact ⟨e, List.mem_append_left _ he, hereal⟩
      · rw [List.mem_singleton.mp h1]
        exact ⟨newE, List.mem_append_right _ (List.mem_singleton.mpr rfl), rfl⟩
    · rw [List.map_append]
      rw [List.nodup_append]
      exact ⟨hwf.ndE, by simp, by
        intro a ha hb
        simp at hb
        rw [hb] at ha
        exact hfresh ha⟩
    · rw [List.map_append]
      rw [List.nodup_append]
      exact ⟨hwf.ndR, by simp, by
        intro a ha hb
        simp at hb
        rw [hb] at ha
        exact hrfresh ha⟩
    · exact ⟨⟨_, rfl⟩, ⟨_, rfl⟩, by show v.entity_count ≤ c; omega, rfl⟩
    · rw [alookup_append_none hnone]
      rw [alookup, if_pos rfl]
    · exact ⟨newE, List.mem_append_right _ (List.mem_singleton.mpr rfl), rfl⟩
    · exact ⟨cat, c, by omega, rfl⟩

theorem getOrCreate_ext (rm : Bool) (realValue : Str) (cat : SensitiveFieldCategory)
    (path : Str) (v : DeIdentificationMap) :
    VaultExt v (getOrCreateToken rm realValue cat path v).2 := by
  rw [getOrCreateToken]
  by_cases hx : (alookup v.reverse_index realValue).getD [] ≠ []
  · rw [if_pos hx]
    exact VaultExt.rfl v
  · rw [if_neg hx]
    cases rm with
    | true =>
      rw [if_pos rfl]
      exact VaultExt.rfl v
    | false =>
      rw [if_neg (by simp)]
      exact ⟨⟨_, rfl⟩, ⟨_, rfl⟩, by show v.entity_count ≤ v.entity_count + 1; omega, rfl⟩

/-! ## Walker lemmas: vault monotonicity -/

mutual
theorem walk_ext (rm : Bool) (extras : List Str) (node : Json) (st : WalkSt)
    (path : Str) : VaultExt st.vault (walkAndTokenize rm extras node st path).2.vault := by
  cases node with
  | null => simp only [walkAndTokenize]; exact VaultExt.rfl _
  | bool b => simp only [walkAndTokenize]; exact VaultExt.rfl _
  | num n => simp only [walkAndTokenize]; exact VaultExt.rfl _
  | str s => simp only [walkAndTokenize]; exact VaultExt.rfl _
  | arr items =>
    simp only [walkAndTokenize]
    exact walkArr_ext rm extras items st path 0
  | obj entries =>
    simp only [walkAndTokenize]
    exact walkObj_ext rm extras entries st path

theorem walkArr_ext (rm : Bool) (extras : List Str) (items : List Json)
    (st : WalkSt) (path : Str) (i : Nat) :
    VaultExt st.vault (walkArr rm extras items st path i).2.vault := by
  cases items with
  | nil => simp only [walkArr]; exact VaultExt.rfl _
  | cons item rest =>
    simp only [walkArr]
    exact VaultExt.trans (walk_ext rm extras item st _)
      (walkArr_ext rm extras rest _ path (i + 1))

theorem walkObj_ext (rm : Bool) (extras : List Str) (entries : List (Str × Json))
    (st : WalkSt) (path : Str) :
    VaultExt st.vault (walkObj rm extras entries st path).2.vault := by
  cases entries with
  | nil => simp only [walkObj]; exact VaultExt.rfl _
  | cons kv rest =>
    obtain ⟨key, value⟩ := kv
    simp only [walkObj]
    cases hsite : siteInfo extras key value with
    | some cs =>
      simp only [hsite]
      exact VaultExt.trans (getOrCreate_ext rm (pyStrip cs.2) cs.1 _ st.vault)
        (walkObj_ext rm extras rest _ path)
    | none =>
      simp only [hsite]
      exact VaultExt.trans (walk_ext rm extras value st _)
        (walkObj_ext rm extras rest _ path)
end

/-! ## Walker lemmas: well-formedness preservation (normal mode) -/

mutual
theorem walk_wf (extras : List Str) (node : Json) (st : WalkSt) (path : Str)
    (h : VaultWF st.vault) :
    VaultWF (walkAndTokenize false extras node st path).2.vault := by
  cases node with
  | null => simpa only [walkAndTokenize] using h
  | bool b => simpa only [walkAndTokenize] using h
  | num n => simpa only [walkAndTokenize] using h
  | str s => simpa only [walkAndTokenize] using h
  | arr items =>
    simp only [walkAndTokenize]
    exact walkArr_wf extras items st path 0 h
  | obj entries =>
    simp only [walkAndTokenize]
    exact walkObj_wf extras entries st path h

theorem walkArr_wf (extras : List Str) (items : List Json) (st : WalkSt)
    (path : Str) (i : Nat) (h : VaultWF st.vault) :
    VaultWF (walkArr false extras items st path i).2.vault := by
  cases items with
  | nil => simpa only [walkArr] using h
  | cons item rest =>
    simp only [walkArr]
    exact walkArr_wf extras rest _ path (i + 1) (walk_wf extras item st _ h)

theorem walkObj_wf (extras : List Str) (entries : List (Str × Json))
    (st : WalkSt) (path : Str) (h : VaultWF st.vault) :
    VaultWF (walkObj false extras entries st path).2.vault := by
  cases entries with
  | nil => simpa only [walkObj] using h
  | cons kv rest =>
    obtain ⟨key, value⟩ := kv
    simp only [walkObj]
    cases hsite : siteInfo extras key value with
    | some cs =>
      simp only [hsite]
      exact walkObj_wf extras rest _ path
        (getOrCreate_wf h (pyStrip cs.2) cs.1 _).1
    | none =>
      simp only [hsite]
      exact walkObj_wf extras rest _ path (walk_wf extras value st _ h)
end

/-! ## Per-category site counting -/

def isSite (extras : List Str) (key : Str) (value : Json) : Bool :=
  (siteInfo extras key value).isSome

mutual
/-- Structural count of tokenization sites of one category: dict entries
whose key classifies to that category and whose value is a string with
non-empty strip.  List elements are never sites themselves. -/
def countSites (extras : List Str) (c : SensitiveFieldCategory) : Json → Nat
  | .null => 0
  | .bool _ => 0
  | .num _ => 0
  | .str _ => 0
  | .arr items => countSitesArr extras c items
  | .obj entries => countSitesObj extras c entries

def countSitesArr (extras : List Str) (c : SensitiveFieldCategory) :
    List Json → Nat
  | [] => 0
  | j :: js => countSites extras c j + countSitesArr extras c js

def countSitesObj (extras : List Str) (c : SensitiveFieldCategory) :
    List (Str × Json) → Nat
  | [] => 0
  | (k, v) :: rest =>
    (match siteInfo extras k v with
     | some cs => if cs.1 = c then 1 else 0
     | none => countSites extras c v) + countSitesObj extras c rest
end

mutual
theorem walk_counts (rm : Bool) (extras : List Str) (node : Json) (st : WalkSt)
    (path : Str) (c : SensitiveFieldCategory) :
    (walkAndTokenize rm extras node st path).2.counts c =
      st.counts c + countSites extras c node := by
  cases node with
  | null => simp [walkAndTokenize, countSites]
  | bool b => simp [walkAndTokenize, countSites]
  | num n => simp [walkAndTokenize, countSites]
  | str s => simp [walkAndTokenize, countSites]
  | arr items =>
    simp only [walkAndTokenize, countSites]
    exact walkArr_counts rm extras items st path 0 c
  | obj entries =>
    simp only [walkAndTokenize, countSites]
    exact walkObj_counts rm extras entries st path c

theorem walkArr_counts (rm : Bool) (extras : List Str) (items : List Json)
    (st : WalkSt) (path : Str) (i : Nat) (c : SensitiveFieldCategory) :
    (walkArr rm extras items st path i).2.counts c =
      st.counts c + countSitesArr extras c items := by
  cases items with
  | nil => simp [walkArr, countSitesArr]
  | cons item rest =>
    simp only [walkArr, countSitesArr]
    rw [walkArr_counts rm extras rest _ path (i + 1) c,
      walk_counts rm extras item st _ c]
    omega

theorem walkObj_counts (rm : Bool) (extras : List Str)
    (entries : List (Str × Json)) (st : WalkSt) (path : Str)
    (c : SensitiveFieldCategory) :
    (walkObj rm extras entries st path).2.counts c =
      st.counts c + countSitesObj extras c entries := by
  cases entries with
  | nil => simp [walkObj, countSitesObj]
  | cons kv rest =>
    obtain ⟨key, value⟩ := kv
    simp only [walkObj, countSitesObj]
    cases hsite : siteInfo extras key value with
    | some cs =>
      simp only [hsite]
      rw [walkObj_counts rm extras rest _ path c]
      show bump st.counts cs.1 c + _ = _
      rw [bump]
      by_cases hc : c = cs.1
      · rw [if_pos hc, if_pos hc.symm]
        omega
      · rw [if_neg hc, if_neg (fun h => hc h.symm)]
        omega
    | none =>
      simp only [hsite]
      rw [walkObj_counts rm extras rest _ path c,
        walk_counts rm extras value st _ c]
      omega
end

/-! ## Shape of the sanitized output

`sanShapeP extras P D S` states (as the spec describes the walker) that `S`
has exactly the shape of `D`: identical except at tokenization sites, whose
key classifies to a category and whose value is a non-empty string, where
the output holds a string related to the original by `P`. -/

mutual
def sanShapeP (extras : List Str) (P : Str → Str → Bool) : Json → Json → Bool
  | .null, .null => true
  | .bool b, .bool b' => b == b'
  | .num n, .num n' => n == n'
  | .str s, .str s' => s == s'
  | .arr xs, .arr ys => sanShapeArrP extras P xs ys
  | .obj es, .obj es' => sanShapeObjP extras P es es'
  | _, _ => false

def sanShapeArrP (extras : List Str) (P : Str → Str → Bool) :
    List Json → List Json → Bool
  | [], [] => true
  | x :: xs, y :: ys => sanShapeP extras P x y && sanShapeArrP extras P xs ys
  | _, _ => false

def sanShapeObjP (extras : List Str) (P : Str → Str → Bool) :
    List (Str × Json) → List (Str × Json) → Bool
  | [], [] => true
  | (k, v) :: rest, (k', v') :: rest' =>
    k == k' &&
      (match siteInfo extras k v with
       | some cs =>
         (match v' with
          | .str t => P cs.2 t
          | _ => false)
       | none => sanShapeP extras P v v') &&
      sanShapeObjP extras P rest rest'
  | _, _ => false
end

mutual
theorem walk_shape (rm : Bool) (extras : List Str) (P : Str → Str → Bool)
    (Inv : DeIdentificationMap → Prop)
    (hTok : ∀ v cat s path, Inv v →
      Inv (getOrCreateToken rm (pyStrip s) cat path v).2 ∧
      P s (getOrCreateToken rm (pyStrip s) cat path v).1 = true)
    (node : Json) (st : WalkSt) (path : Str) (hInv : Inv st.vault) :
    sanShapeP extras P node (walkAndTokenize rm extras node st path).1 = true ∧
    Inv (walkAndTokenize rm extras node st path).2.vault := by
  cases node with
  | null => exact ⟨by simp [walkAndTokenize, sanShapeP], by simpa [walkAndTokenize] using hInv⟩
  | bool b => exact ⟨by simp [walkAndTokenize, sanShapeP], by simpa [walkAndTokenize] using hInv⟩
  | num n => exact ⟨by simp [walkAndTokenize, sanShapeP], by simpa [walkAndTokenize] using hInv⟩
  | str s => exact ⟨by simp [walkAndTokenize, sanShapeP], by simpa [walkAndTokenize] using hInv⟩
  | arr items =>
    have h := walkArr_shape rm extras P Inv hTok items st path 0 hInv
    exact ⟨by simp only [walkAndTokenize, sanShapeP]; exact h.1,
      by simp only [walkAndTokenize]; exact h.2⟩
  | obj entries =>
    have h := walkObj_shape rm extras P Inv hTok entries st path hInv
    exact ⟨by simp only [walkAndTokenize, sanShapeP]; exact h.1,
      by simp only [walkAndTokenize]; exact h.2⟩

theorem walkArr_shape (rm : Bool) (extras : List Str) (P : Str → Str → Bool)
    (Inv : DeIdentificationMap → Prop)
    (hTok : ∀ v cat s path, Inv v →
      Inv (getOrCreateToken rm (pyStrip s) cat path v).2 ∧
      P s (getOrCreateToken rm (pyStrip s) cat path v).1 = true)
    (items : List Json) (st : WalkSt) (path : Str) (i : Nat)
    (hInv : Inv st.vault) :
    sanShapeArrP extras P items (walkArr rm extras items st path i).1 = true ∧
    Inv (walkArr rm extras items st path i).2.vault := by
  cases items with
  | nil => exact ⟨by simp [walkArr, sanShapeArrP], by simpa [walkArr] using hInv⟩
  | cons item rest =>
    have h1 := walk_shape rm extras P Inv hTok item st
      (path ++ '[' :: natDigits i ++ [']']) hInv
    have h2 := walkArr_shape rm extras P Inv hTok rest _ path (i + 1) h1.2
    refine ⟨?_, ?_⟩
    · simp only [walkArr, sanShapeArrP]
      rw [h1.1, h2.1]
      rfl
    · simp only [walkArr]
      exact h2.2

theorem walkObj_shape (rm : Bool) (extras : List Str) (P : Str → Str → Bool)
    (Inv : DeIdentificationMap → Prop)
    (hTok : ∀ v cat s path, Inv v →
      Inv (getOrCreateToken rm (pyStrip s) cat path v).2 ∧
      P s (getOrCreateToken rm (pyStrip s) cat path v).1 = true)
    (entries : List (Str × Json)) (st : WalkSt) (path : Str)
    (hInv : Inv st.vault) :
    sanShapeObjP extras P entries (walkObj rm extras entries st path).1 = true ∧
    Inv (walkObj rm extras entries st path).2.vault := by
  cases entries with
  | nil => exact ⟨by simp [walkObj, sanShapeObjP], by simpa [walkObj] using hInv⟩
  | cons kv rest =>
    obtain ⟨key, value⟩ := kv
    cases hsite : siteInfo extras key value with
    | some cs =>
      have htk := hTok st.vault cs.1 cs.2 (path ++ '.' :: key) hInv
      have h2 := walkObj_shape rm extras P Inv hTok rest
        ⟨(getOrCreateToken rm (pyStrip cs.2) cs.1 (path ++ '.' :: key) st.vault).2,
          bump st.counts cs.1⟩ path htk.1
      refine ⟨?_, ?_⟩
      · simp only [walkObj, hsite, sanShapeObjP]
        simp [htk.2, h2.1]
      · simp only [walkObj, hsite]
        exact h2.2
    | none =>
      have h1 := walk_shape rm extras P Inv hTok value st (path ++ '.' :: key) hInv
      have h2 := walkObj_shape rm extras P Inv hTok rest _ path h1.2
      refine ⟨?_, ?_⟩
      · simp only [walkObj, hsite, sanShapeObjP]
        simp [h1.1, h2.1]
      · simp only [walkObj, hsite]
        exact h2.2
end

/-! ## Redact mode -/

theorem siteInfo_eq_some {extras : List Str} {key : Str} {value : Json}
    {cs : SensitiveFieldCategory × Str} (h : siteInfo extras key value = some cs) :
    classifyField extras key = some cs.1 ∧ value = Json.str cs.2 ∧
      pyStrip cs.2 ≠ [] := by
  unfold siteInfo at h
  rcases hcl : classifyField extras key with _ | cat
  · rw [hcl] at h
    cases value <;> simp at h
  · rw [hcl] at h
    cases value with
    | str s =>
      dsimp only at h
      by_cases hs : pyStrip s = []
      · rw [if_pos hs] at h
        cases h
      · rw [if_neg hs] at h
        injection h with h'
        rw [← h']
        exact ⟨rfl, rfl, hs⟩
    | null => cases h
    | bool b => cases h
    | num n => cases h
    | arr items => cases h
    | obj entries => cases h

theorem siteInfo_str {extras : List Str} {key : Str} {s : Str} {cat : SensitiveFieldCategory}
    (hcl : classifyField extras key = some cat) (hs : pyStrip s ≠ []) :
    siteInfo extras key (Json.str s) = some (cat, s) := by
  unfold siteInfo
  rw [hcl]
  simp [hs]

mutual
theorem walk_redact_keep (extras : List Str) (node : Json) (st : WalkSt)
    (path : Str) (h : st.vault.reverse_index = []) :
    (walkAndTokenize true extras node st path).2.vault = st.vault := by
  cases node with
  | null => simp [walkAndTokenize]
  | bool b => simp [walkAndTokenize]
  | num n => simp [walkAndTokenize]
  | str s => simp [walkAndTokenize]
  | arr items =>
    simp only [walkAndTokenize]
    exact walkArr_redact_keep extras items st path 0 h
  | obj entries =>
    simp only [walkAndTokenize]
    exact walkObj_redact_keep extras entries st path h

theorem walkArr_redact_keep (extras : List Str) (items : List Json) (st : WalkSt)
    (path : Str) (i : Nat) (h : st.vault.reverse_index = []) :
    (walkArr true extras items st path i).2.vault = st.vault := by
  cases items with
  | nil => simp [walkArr]
  | cons item rest =>
    simp only [walkArr]
    have h1 := walk_redact_keep extras item st
      (path ++ '[' :: natDigits i ++ [']']) h
    have h2 := walkArr_redact_keep extras rest _ path (i + 1) (by rw [h1, h])
    rw [h2, h1]

theorem walkObj_redact_keep (extras : List Str) (entries : List (Str × Json))
    (st : WalkSt) (path : Str) (h : st.vault.reverse_index = []) :
    (walkObj true extras entries st path).2.vault = st.vault := by
  cases entries with
  | nil => simp [walkObj]
  | cons kv rest =>
    obtain ⟨key, value⟩ := kv
    cases hsite : siteInfo extras key value with
    | some cs =>
      have hg : getOrCreateToken true (pyStrip cs.2) cs.1 (path ++ '.' :: key)
          st.vault = ("[REDACTED]".data, st.vault) :=
        getOrCreate_redact cs.1 _ h
      simp only [walkObj, hsite, hg]
      exact walkObj_redact_keep extras rest _ path h
    | none =>
      simp only [walkObj, hsite]
      have h1 := walk_redact_keep extras value st (path ++ '.' :: key) h
      have h2 := walkObj_redact_keep extras rest _ path (by rw [h1, h])
      rw [h2, h1]
end

mutual
/-- Two inputs differ only in the original values of tokenization sites:
identical everywhere, except that at entries that are sites in both, the
string values may differ arbitrarily. -/
def sensEquiv (extras : List Str) : Json → Json → Bool
  | .null, .null => true
  | .bool b, .bool b' => b == b'
  | .num n, .num n' => n == n'
  | .str s, .str s' => s == s'
  | .arr xs, .arr ys => sensEquivArr extras xs ys
  | .obj es, .obj es' => sensEquivObj extras es es'
  | _, _ => false

def sensEquivArr (extras : List Str) : List Json → List Json → Bool
  | [], [] => true
  | x :: xs, y :: ys => sensEquiv extras x y && sensEquivArr extras xs ys
  | _, _ => false

def sensEquivObj (extras : List Str) :
    List (Str × Json) → List (Str × Json) → Bool
  | [], [] => true
  | (k, v) :: rest, (k', v') :: rest' =>
    k == k' && (isSite extras k v && isSite extras k v' || sensEquiv extras v v') &&
      sensEquivObj extras rest rest'
  | _, _ => false
end

mutual
/-- Redact-mode noninterference: walking two `sensEquiv`-related inputs from
the same state produces identical results. -/
theorem walk_ni (extras : List Str) (n1 n2 : Json) (st : WalkSt) (path : Str)
    (heq : sensEquiv extras n1 n2 = true) (h : st.vault.reverse_index = []) :
    walkAndTokenize true extras n1 st path = walkAndTokenize true extras n2 st path := by
  cases n1 with
  | null => cases n2 <;> simp_all [sensEquiv]
  | bool b => cases n2 <;> simp_all [sensEquiv]
  | num n => cases n2 <;> simp_all [sensEquiv]
  | str s => cases n2 <;> simp_all [sensEquiv]
  | arr xs =>
    cases n2 with
    | arr ys =>
      have h1 := walkArr_ni extras xs ys st path 0
        (by simpa [sensEquiv] using heq) h
      simp only [walkAndTokenize, h1]
    | null => simp [sensEquiv] at heq
    | bool b => simp [sensEquiv] at heq
    | num n => simp [sensEquiv] at heq
    | str s => simp [sensEquiv] at heq
    | obj es => simp [sensEquiv] at heq
  | obj es =>
    cases n2 with
    | obj es' =>
      have h1 := walkObj_ni extras es es' st path
        (by simpa [sensEquiv] using heq) h
      simp only [walkAndTokenize, h1]
    | null => simp [sensEquiv] at heq
    | bool b => simp [sensEquiv] at heq
    | num n => simp [sensEquiv] at heq
    | str s => simp [sensEquiv] at heq
    | arr ys => simp [sensEquiv] at heq

theorem walkArr_ni (extras : List Str) (xs ys : List Json) (st : WalkSt)
    (path : Str) (i : Nat) (heq : sensEquivArr extras xs ys = true)
    (h : st.vault.reverse_index = []) :
    walkArr true extras xs st path i = walkArr true extras ys st path i := by
  cases xs with
  | nil =>
    cases ys with
    | nil => rfl
    | cons y ys' => simp [sensEquivArr] at heq
  | cons x xs' =>
    cases ys with
    | nil => simp [sensEquivArr] at heq
    | cons y ys' =>
      have heq' : sensEquiv extras x y = true ∧ sensEquivArr extras xs' ys' = true := by
        simpa [sensEquivArr] using heq
      have h1 := walk_ni extras x y st (path ++ '[' :: natDigits i ++ [']'])
        heq'.1 h
      have hkeep := walk_redact_keep extras x st
        (path ++ '[' :: natDigits i ++ [']']) h
      have h2 := walkArr_ni extras xs' ys' _ path (i + 1) heq'.2
        (by rw [hkeep, h])
      rw [h1] at h2
      simp only [walkArr, h1, h2]

theorem walkObj_ni (extras : List Str) (es es' : List (Str × Json)) (st : WalkSt)
    (path : Str) (heq : sensEquivObj extras es es' = true)
    (h : st.vault.reverse_index = []) :
    walkObj true extras es st path = walkObj true extras es' st path := by
  cases es with
  | nil =>
    cases es' with
    | nil => rfl
    | cons q rest' => simp [sensEquivObj] at heq
  | cons p rest =>
    obtain ⟨k, v⟩ := p
    cases es' with
    | nil => simp [sensEquivObj] at heq
    | cons q rest' =>
      obtain ⟨k', v'⟩ := q
      have heq' : k = k' ∧
          ((isSite extras k v = true ∧ isSite extras k v' = true) ∨
            sensEquiv extras v v' = true) ∧
          sensEquivObj extras rest rest' = true := by
        have h0 : (k == k' &&
            (isSite extras k v && isSite extras k v' || sensEquiv extras v v') &&
            sensEquivObj extras rest rest') = true := heq
        simp only [Bool.and_eq_true, Bool.or_eq_true, beq_iff_eq] at h0
        exact ⟨h0.1.1, h0.1.2, h0.2⟩
      obtain ⟨hk, hmid, hrest⟩ := heq'
      subst hk
      rcases hmid with hsites | hequiv
      · -- both entries are tokenization sites: both redact to the sentinel
        have hs1 : isSite extras k v = true := hsites.1
        have hs2 : isSite extras k v' = true := hsites.2
        obtain ⟨cs1, hcs1⟩ := Option.isSome_iff_exists.mp hs1
        obtain ⟨cs2, hcs2⟩ := Option.isSome_iff_exists.mp hs2
        obtain ⟨hcl1, _, _⟩ := siteInfo_eq_some hcs1
        obtain ⟨hcl2, _, _⟩ := siteInfo_eq_some hcs2
        have hcat : cs1.1 = cs2.1 :=
          Option.some.inj (hcl1.symm.trans hcl2)
        have hg1 : getOrCreateToken true (pyStrip cs1.2) cs1.1 (path ++ '.' :: k)
            st.vault = ("[REDACTED]".data, st.vault) := getOrCreate_redact cs1.1 _ h
        have hg2 : getOrCreateToken true (pyStrip cs2.2) cs2.1 (path ++ '.' :: k)
            st.vault = ("[REDACTED]".data, st.vault) := getOrCreate_redact cs2.1 _ h
        have hrec := walkObj_ni extras rest rest'
          ⟨st.vault, bump st.counts cs1.1⟩ path hrest h
        rw [hcat] at hrec
        simp only [walkObj, hcs1, hcs2]
        rw [hg1, hg2]
        dsimp only
        rw [hcat, hrec]
      · -- otherwise the head entries are walked identically
        cases hsv : siteInfo extras k v with
        | some cs =>
          -- v is a site; v' must be the identical string, hence also a site
          obtain ⟨hcl, hv, hnz⟩ := siteInfo_eq_some hsv
          have hv' : v' = Json.str cs.2 := by
            rw [hv] at hequiv
            cases v' with
            | str s2 =>
              have hseq : cs.2 = s2 := by simpa [sensEquiv] using hequiv
              rw [hseq]
            | null => simp [sensEquiv] at hequiv
            | bool b => simp [sensEquiv] at hequiv
            | num n => simp [sensEquiv] at hequiv
            | arr xs => simp [sensEquiv] at hequiv
            | obj es => simp [sensEquiv] at hequiv
          have hsv' : siteInfo extras k v' = some cs := by
            rw [hv']
            rw [show cs = (cs.1, cs.2) from rfl] at hsv ⊢
            exact siteInfo_str hcl hnz
          have hrec := walkObj_ni extras rest rest'
            ⟨(getOrCreateToken true (pyStrip cs.2) cs.1 (path ++ '.' :: k) st.vault).2,
              bump st.counts cs.1⟩ path hrest
            (by rw [(getOrCreate_redact cs.1 _ h : _ = ("[REDACTED]".data, st.vault))]
                exact h)
          simp only [walkObj, hsv, hsv', hrec]
        | none =>
          have hsv' : siteInfo extras k v' = none := by
            cases hsv2 : siteInfo extras k v' with
            | none => rfl
            | some cs2 =>
              exfalso
              obtain ⟨hcl2, hv2, hnz2⟩ := siteInfo_eq_some hsv2
              rw [hv2] at hequiv
              have hveq : v = Json.str cs2.2 := by
                cases v with
                | str s0 =>
                  have hseq : s0 = cs2.2 := by simpa [sensEquiv] using hequiv
                  rw [hseq]
                | null => simp [sensEquiv] at hequiv
                | bool b => simp [sensEquiv] at hequiv
                | num n => simp [sensEquiv] at hequiv
                | arr xs => simp [sensEquiv] at hequiv
                | obj es => simp [sensEquiv] at hequiv
              rw [hveq] at hsv
              rw [show cs2 = (cs2.1, cs2.2) from rfl] at hsv2
              rw [siteInfo_str hcl2 hnz2] at hsv
              cases hsv
          have h1 := walk_ni extras v v' st (path ++ '.' :: k) hequiv h
          have hkeep := walk_redact_keep extras v st (path ++ '.' :: k) h
          have hrec := walkObj_ni extras rest rest' _ path hrest
            (by rw [hkeep, h])
          rw [h1] at hrec
          simp only [walkObj, hsv, hsv', h1, hrec]
end

/-! ## Round trip -/

mutual
/-- All string leaf values occurring in a document. -/
def jsonStrs : Json → List Str
  | .null => []
  | .bool _ => []
  | .num _ => []
  | .str s => [s]
  | .arr items => jsonStrsArr items
  | .obj entries => jsonStrsObj entries

def jsonStrsArr : List Json → List Str
  | [] => []
  | j :: js => jsonStrs j ++ jsonStrsArr js

def jsonStrsObj : List (Str × Json) → List Str
  | [] => []
  | (_, v) :: rest => jsonStrs v ++ jsonStrsObj rest
end

/-- The `(token, original)` pairs `re_identify` builds from a vault. -/
def tokenPairsOf (v : DeIdentificationMap) : List (Str × Str) :=
  v.entries.map (fun te => (te.2.token, te.2.real_value))

theorem tokenPairsOf_fst {v : DeIdentificationMap} (hwf : VaultWF v) :
    (tokenPairsOf v).map Prod.fst = v.entries.map Prod.fst := by
  rw [tokenPairsOf, List.map_map]
  exact List.map_congr_left (fun p hp => hwf.keyEq p hp)

/-- A string is compatible with a vault for exact round-tripping: it is
strip-invariant and no stored token occurs inside it. -/
def StrOkFor (Vf : DeIdentificationMap) (s : Str) : Prop :=
  pyStrip s = s ∧ ∀ p ∈ Vf.entries, containsSub p.2.token s = false

theorem site_token_restores {Vf : DeIdentificationMap} (hwf : VaultWF Vf)
    {t : Str} {e : VaultEntry} (hmem : (t, e) ∈ Vf.entries)
    (hshort : ∀ p ∈ Vf.entries, containsSub p.2.token e.real_value = false) :
    replaceTokensInString t (List.insertionSort tokenLenGE (tokenPairsOf Vf)) =
      e.real_value := by
  apply rts_token_sorted
  · rw [tokenPairsOf_fst hwf]
    exact hwf.ndE
  · exact List.mem_map.mpr ⟨(t, e), hmem, by rw [hwf.keyEq (t, e) hmem]⟩
  · obtain ⟨c, i, _, _, hsh⟩ := hwf.shape (t, e) hmem
    rw [show t = mkToken c i from hsh]
    exact mkToken_ne_nil c i
  · intro p hp
    obtain ⟨q, hq, hqe⟩ := List.mem_map.mp hp
    rw [← hqe]
    exact hshort q hq

theorem nosite_str_noop {Vf : DeIdentificationMap} {s : Str}
    (hstr : ∀ p ∈ Vf.entries, containsSub p.2.token s = false) :
    replaceTokensInString s (List.insertionSort tokenLenGE (tokenPairsOf Vf)) = s := by
  apply rts_sorted_no_op
  intro p hp
  obtain ⟨q, hq, hqe⟩ := List.mem_map.mp hp
  rw [← hqe]
  exact hstr q hq

mutual
theorem walk_rt (extras : List Str) (node : Json) (st : WalkSt) (path : Str)
    (hwf : VaultWF st.vault) (Vf : DeIdentificationMap) (hwfF : VaultWF Vf)
    (hext : VaultExt (walkAndTokenize false extras node st path).2.vault Vf)
    (hstr : ∀ s ∈ jsonStrs node, StrOkFor Vf s) :
    walkAndReplace (walkAndTokenize false extras node st path).1
      (List.insertionSort tokenLenGE (tokenPairsOf Vf)) = node := by
  cases node with
  | null => simp [walkAndTokenize, walkAndReplace]
  | bool b => simp [walkAndTokenize, walkAndReplace]
  | num n => simp [walkAndTokenize, walkAndReplace]
  | str s =>
    simp only [walkAndTokenize, walkAndReplace]
    rw [nosite_str_noop (hstr s (by simp [jsonStrs])).2]
  | arr items =>
    simp only [walkAndTokenize] at hext ⊢
    simp only [walkAndReplace]
    rw [walkArr_rt extras items st path 0 hwf Vf hwfF hext
      (by simpa [jsonStrs] using hstr)]
  | obj entries =>
    simp only [walkAndTokenize] at hext ⊢
    simp only [walkAndReplace]
    rw [walkObj_rt extras entries st path hwf Vf hwfF hext
      (by simpa [jsonStrs] using hstr)]

theorem walkArr_rt (extras : List Str) (items : List Json) (st : WalkSt)
    (path : Str) (i : Nat) (hwf : VaultWF st.vault) (Vf : DeIdentificationMap)
    (hwfF : VaultWF Vf)
    (hext : VaultExt (walkArr false extras items st path i).2.vault Vf)
    (hstr : ∀ s ∈ jsonStrsArr items, StrOkFor Vf s) :
    walkReplaceArr (walkArr false extras items st path i).1
      (List.insertionSort tokenLenGE (tokenPairsOf Vf)) = items := by
  cases items with
  | nil => simp [walkArr, walkReplaceArr]
  | cons item rest =>
    simp only [walkArr] at hext ⊢
    simp only [walkReplaceArr]
    have hext1 : VaultExt (walkAndTokenize false extras item st
        (path ++ '[' :: natDigits i ++ [']'])).2.vault Vf :=
      VaultExt.trans (walkArr_ext false extras rest _ path (i + 1)) hext
    rw [walk_rt extras item st _ hwf Vf hwfF hext1
      (fun s hs => hstr s (by simp [jsonStrsArr, hs]))]
    rw [walkArr_rt extras rest _ path (i + 1)
      (walk_wf extras item st _ hwf) Vf hwfF hext
      (fun s hs => hstr s (by simp [jsonStrsArr, hs]))]

theorem walkObj_rt (extras : List Str) (entries : List (Str × Json))
    (st : WalkSt) (path : Str) (hwf : VaultWF st.vault)
    (Vf : DeIdentificationMap) (hwfF : VaultWF Vf)
    (hext : VaultExt (walkObj false extras entries st path).2.vault Vf)
    (hstr : ∀ s ∈ jsonStrsObj entries, StrOkFor Vf s) :
    walkReplaceObj (walkObj false extras entries st path).1
      (List.insertionSort tokenLenGE (tokenPairsOf Vf)) = entries := by
  cases entries with
  | nil => simp [walkObj, walkReplaceObj]
  | cons kv rest =>
    obtain ⟨key, value⟩ := kv
    cases hsite : siteInfo extras key value with
    | some cs =>
      obtain ⟨hcl, hv, hnz⟩ := siteInfo_eq_some hsite
      simp only [walkObj, hsite] at hext ⊢
      simp only [walkReplaceObj, walkAndReplace]
      have hok : StrOkFor Vf cs.2 :=
        hstr cs.2 (by simp [jsonStrsObj, hv, jsonStrs])
      have htk := getOrCreate_wf hwf (pyStrip cs.2) cs.1 (path ++ '.' :: key)
      obtain ⟨e, hmemE, hereal⟩ := htk.2.2.2.1
      have hextTok : VaultExt (getOrCreateToken false (pyStrip cs.2) cs.1
          (path ++ '.' :: key) st.vault).2 Vf :=
        VaultExt.trans (walkObj_ext false extras rest _ path) hext
      have hmemF : ((getOrCreateToken false (pyStrip cs.2) cs.1
          (path ++ '.' :: key) st.vault).1, e) ∈ Vf.entries :=
        hextTok.mem_entries hmemE
      have hres : replaceTokensInString
          (getOrCreateToken false (pyStrip cs.2) cs.1 (path ++ '.' :: key) st.vault).1
          (List.insertionSort tokenLenGE (tokenPairsOf Vf)) = e.real_value :=
        site_token_restores hwfF hmemF
          (by rw [hereal, hok.1]; exact hok.2)
      have hhead : replaceTokensInString
          (getOrCreateToken false (pyStrip cs.2) cs.1 (path ++ '.' :: key) st.vault).1
          (List.insertionSort tokenLenGE (tokenPairsOf Vf)) = cs.2 := by
        rw [hres, hereal, hok.1]
      rw [hhead, ← hv]
      rw [walkObj_rt extras rest _ path htk.1 Vf hwfF hext
        (fun s hs => hstr s (by simp [jsonStrsObj, hs]))]
    | none =>
      simp only [walkObj, hsite] at hext ⊢
      simp only [walkReplaceObj]
      have hext1 : VaultExt (walkAndTokenize false extras value st
          (path ++ '.' :: key)).2.vault Vf :=
        VaultExt.trans (walkObj_ext false extras rest _ path) hext
      rw [walk_rt extras value st _ hwf Vf hwfF hext1
        (fun s hs => hstr s (by simp [jsonStrsObj, hs]))]
      rw [walkObj_rt extras rest _ path (walk_wf extras value st _ hwf) Vf hwfF
        hext (fun s hs => hstr s (by simp [jsonStrsObj, hs]))]
end

/-! ## Token emission (for the consistent-mapping property)

`Emits extras D S s t` holds when somewhere in `D`, at a dict entry whose
key classifies as sensitive and whose value is a string with non-empty
strip equal (after stripping) to `s`, the aligned position of `S` holds the
string `t`. -/

inductive Emits (extras : List Str) : Json → Json → Str → Str → Prop where
  | site {es es' : List (Str × Json)} {k s t : Str} {cat : SensitiveFieldCategory}
      (hmem : ((k, Json.str s), (k, Json.str t)) ∈ es.zip es')
      (hcl : classifyField extras k = some cat) (hnz : pyStrip s ≠ []) :
      Emits extras (.obj es) (.obj es') (pyStrip s) t
  | objChild {es es' : List (Str × Json)} {k : Str} {v v' : Json} {s t : Str}
      (hmem : ((k, v), (k, v')) ∈ es.zip es') (hns : isSite extras k v = false)
      (hrec : Emits extras v v' s t) : Emits extras (.obj es) (.obj es') s t
  | arrChild {items items' : List Json} {v v' : Json} {s t : Str}
      (hmem : (v, v') ∈ items.zip items') (hrec : Emits extras v v' s t) :
      Emits extras (.arr items) (.arr items') s t

/-- Positional decomposition of the walker's dict output along a zip
member: the aligned output entry is the head-processing of the input entry
from some intermediate state, whose post-state extends into the final
state. -/
theorem walkObj_zip (extras : List Str) (es : List (Str × Json)) (st : WalkSt)
    (path : Str) {kv kv' : Str × Json}
    (hmem : (kv, kv') ∈ es.zip (walkObj false extras es st path).1) :
    kv'.1 = kv.1 ∧ ∃ stA : WalkSt,
      (VaultWF st.vault → VaultWF stA.vault) ∧
      ((∃ cs, siteInfo extras kv.1 kv.2 = some cs ∧
          kv'.2 = Json.str (getOrCreateToken false (pyStrip cs.2) cs.1
            (path ++ '.' :: kv.1) stA.vault).1 ∧
          VaultExt (getOrCreateToken false (pyStrip cs.2) cs.1
            (path ++ '.' :: kv.1) stA.vault).2
            (walkObj false extras es st path).2.vault) ∨
        (siteInfo extras kv.1 kv.2 = none ∧
          kv'.2 = (walkAndTokenize false extras kv.2 stA (path ++ '.' :: kv.1)).1 ∧
          VaultExt (walkAndTokenize false extras kv.2 stA
            (path ++ '.' :: kv.1)).2.vault
            (walkObj false extras es st path).2.vault)) := by
  induction es generalizing st with
  | nil => simp [walkObj] at hmem
  | cons p rest ih =>
    obtain ⟨key, value⟩ := p
    cases hsite : siteInfo extras key value with
    | some cs =>
      simp only [walkObj, hsite] at hmem ⊢
      have hmem2 := hmem
      simp only [List.zip_cons_cons, List.mem_cons, Prod.mk.injEq] at hmem2
      rcases hmem2 with ⟨hkv, hkv'⟩ | h1
      · refine ⟨by rw [hkv, hkv'], st, fun h => h, Or.inl ⟨cs, by rw [hkv]; exact hsite, ?_, ?_⟩⟩
        · rw [hkv, hkv']
        · rw [hkv]
          exact walkObj_ext false extras rest _ path
      · have hrec := ih _ h1
        refine ⟨hrec.1, ?_⟩
        obtain ⟨stA, hwfT, hbr⟩ := hrec.2
        exact ⟨stA, fun h => hwfT ((getOrCreate_wf h (pyStrip cs.2) cs.1 _).1), hbr⟩
    | none =>
      simp only [walkObj, hsite] at hmem ⊢
      have hmem2 := hmem
      simp only [List.zip_cons_cons, List.mem_cons, Prod.mk.injEq] at hmem2
      rcases hmem2 with ⟨hkv, hkv'⟩ | h1
      · refine ⟨by rw [hkv, hkv'], st, fun h => h, Or.inr ⟨by rw [hkv]; exact hsite, ?_, ?_⟩⟩
        · rw [hkv, hkv']
        · rw [hkv]
          exact walkObj_ext false extras rest _ path
      · have hrec := ih _ h1
        refine ⟨hrec.1, ?_⟩
        obtain ⟨stA, hwfT, hbr⟩ := hrec.2
        exact ⟨stA, fun h => hwfT (walk_wf extras value st _ h), hbr⟩

/-- Positional decomposition of the walker's list output along a zip
member. -/
theorem walkArr_zip (extras : List Str) (items : List Json) (st : WalkSt)
    (path : Str) (i : Nat) {v v' : Json}
    (hmem : (v, v') ∈ items.zip (walkArr false extras items st path i).1) :
    ∃ (stA : WalkSt) (pth : Str),
      (VaultWF st.vault → VaultWF stA.vault) ∧
      v' = (walkAndTokenize false extras v stA pth).1 ∧
      VaultExt (walkAndTokenize false extras v stA pth).2.vault
        (walkArr false extras items st path i).2.vault := by
  induction items generalizing st i with
  | nil => simp [walkArr] at hmem
  | cons item rest ih =>
    simp only [walkArr] at hmem ⊢
    have hmem2 := hmem
    simp only [List.zip_cons_cons, List.mem_cons, Prod.mk.injEq] at hmem2
    rcases hmem2 with ⟨hv, hv'⟩ | h1
    · refine ⟨st, path ++ '[' :: natDigits i ++ [']'], fun h => h, ?_, ?_⟩
      · rw [hv, hv']
      · rw [hv]
        exact walkArr_ext false extras rest _ path (i + 1)
    · obtain ⟨stA, pth, hwfT, hveq, hbr⟩ := ih _ (i + 1) h1
      exact ⟨stA, pth, fun h => hwfT (walk_wf extras item st _ h), hveq, hbr⟩

/-- Every emission is recorded in the final reverse index. -/
theorem walk_emits (extras : List Str) {node out : Json} {s t : Str}
    (he : Emits extras node out s t) :
    ∀ st path, VaultWF st.vault →
      out = (walkAndTokenize false extras node st path).1 →
      alookup (walkAndTokenize false extras node st path).2.vault.reverse_index
        s = some t := by
  induction he with
  | site hmem hcl hnz =>
    rename_i es es' k s0 t0 cat
    intro st path hwf hout
    simp only [walkAndTokenize] at hout ⊢
    have hes' : es' = (walkObj false extras es st path).1 := by
      injection hout
    rw [hes'] at hmem
    obtain ⟨_, stA, hwfT, hbr⟩ := walkObj_zip extras es st path hmem
    rcases hbr with ⟨cs, hcs, hv', hextT⟩ | ⟨hcs, _, _⟩
    · have hcs0 : siteInfo extras k (Json.str s0) = some (cat, s0) :=
        siteInfo_str hcl hnz
      rw [hcs0] at hcs
      injection hcs with hcs2
      rw [← hcs2] at hv' hextT
      have htk := getOrCreate_wf (hwfT hwf) (pyStrip s0) cat (path ++ '.' :: k)
      have ht0 : t0 = (getOrCreateToken false (pyStrip s0) cat
          (path ++ '.' :: k) stA.vault).1 := by
        injection hv'
      rw [ht0]
      exact hextT.lookup_reverse htk.2.2.1
    · rw [siteInfo_str hcl hnz] at hcs
      cases hcs
  | objChild hmem hns hrec ih =>
    rename_i es es' k v v' s0 t0
    intro st path hwf hout
    simp only [walkAndTokenize] at hout ⊢
    have hes' : es' = (walkObj false extras es st path).1 := by
      injection hout
    rw [hes'] at hmem
    obtain ⟨_, stA, hwfT, hbr⟩ := walkObj_zip extras es st path hmem
    rcases hbr with ⟨cs, hcs, _, _⟩ | ⟨_, hv', hextT⟩
    · rw [isSite, hcs] at hns
      cases hns
    · exact hextT.lookup_reverse (ih stA (path ++ '.' :: k) (hwfT hwf) hv')
  | arrChild hmem hrec ih =>
    rename_i items items' v v' s0 t0
    intro st path hwf hout
    simp only [walkAndTokenize] at hout ⊢
    have hitems' : items' = (walkArr false extras items st path 0).1 := by
      injection hout
    rw [hitems'] at hmem
    obtain ⟨stA, pth, hwfT, hveq, hextT⟩ := walkArr_zip extras items st path 0 hmem
    exact hextT.lookup_reverse (ih stA pth (hwfT hwf) hveq)

/-! ## Claim C4: allow-list precedence -/

/-- Claim C4, counterexample: the claim as stated is false — the allow-list check is exact membership
(of the lowered or normalized name), not substring containment.  The field
name `name` normalizes to a substring of the allow-listed `accountname`,
yet it is classified as a Name field. -/
theorem claim_C4_counterexample :
    containsSub (normaliseStr "name".data) "accountname".data = true ∧
    memStr FIELD_ALLOWLIST "accountname".data = true ∧
    classifyField [] "name".data = some SensitiveFieldCategory.name := by
  decide

/-- Claim C4 (amended): allow-list precedence is exact-match precedence — whenever the lower-cased or the
normalized field name is exactly an allow-listed entry, classification
returns `None` even if the name also matches a sensitivity pattern and
regardless of the extra sensitive fields; in particular `account_code` is
never classified at all (hence never as BankAccount). -/
theorem claim_C4 (extraFields : List Str) (fieldName : Str)
    (h : memStr FIELD_ALLOWLIST (lowerStr fieldName) = true ∨
      memStr FIELD_ALLOWLIST (normaliseStr fieldName) = true) :
    classifyField extraFields fieldName = none ∧
    classifyField extraFields "account_code".data = none := by
  constructor
  · rw [classifyField]
    rcases h with h | h <;> simp [h]
  · rw [classifyField, if_pos (by decide)]

theorem claim_C4_witness :
    (memStr FIELD_ALLOWLIST (lowerStr "Account_Code".data) = true ∨
      memStr FIELD_ALLOWLIST (normaliseStr "Account_Code".data) = true) ∧
    classifyField [] "Account_Code".data = none :=
  ⟨Or.inl (by decide), (claim_C4 [] "Account_Code".data (Or.inl (by decide))).1⟩

/-! ## Claim C10: extra sensitive fields with separators never match -/

theorem find?_skip_of_false (p : Str → Bool) {e : Str} (hp : p e = false) :
    ∀ l1 l2 : List Str, (l1 ++ e :: l2).find? p = (l1 ++ l2).find? p := by
  intro l1 l2
  induction l1 with
  | nil => simp [List.find?_cons, hp]
  | cons a l1 ih =>
    by_cases hpa : p a = true
    · simp [List.find?_cons, hpa]
    · rw [Bool.not_eq_true] at hpa
      simp [List.find?_cons, hpa, ih]

/-- Claim C10: a configured extra sensitive field name that contains any character
other than a lower-case letter or digit after lower-casing (for instance an
underscore, as in `client_ref`) can never be a substring of any normalized
field name, and its presence in the extra-fields list never changes any
classification. -/
theorem claim_C10 (e : Str) (he : (lowerStr e).all isLowerAlnum = false) :
    (∀ fieldName : Str,
      containsSub (lowerStr e) (normaliseStr fieldName) = false) ∧
    (∀ (pre post : List Str) (fieldName : Str),
      classifyField (pre ++ lowerStr e :: post) fieldName =
        classifyField (pre ++ post) fieldName) := by
  have hchar : ∃ c ∈ lowerStr e, isLowerAlnum c = false := by
    have h1 : ¬ ((lowerStr e).all isLowerAlnum = true) := by
      rw [he]
      simp
    rw [List.all_eq_true] at h1
    push_neg at h1
    obtain ⟨c, hc, hcp⟩ := h1
    exact ⟨c, hc, by simpa using hcp⟩
  obtain ⟨c, hcmem, hcfalse⟩ := hchar
  have hnever : ∀ fieldName : Str,
      containsSub (lowerStr e) (normaliseStr fieldName) = false := by
    intro fieldName
    exact containsSub_false_of_filtered hcmem hcfalse
      (fun x hx => List.of_mem_filter hx)
  refine ⟨hnever, ?_⟩
  intro pre post fieldName
  rw [classifyField, classifyField]
  rw [find?_skip_of_false (fun extra => containsSub extra (normaliseStr fieldName))
    (hnever fieldName) pre post]

theorem claim_C10_witness :
    ((lowerStr "client_ref".data).all isLowerAlnum = false) ∧
    containsSub (lowerStr "client_ref".data) (normaliseStr "client_ref".data) = false ∧
    classifyField ([] ++ lowerStr "client_ref".data :: []) "client_ref".data =
      classifyField ([] ++ []) "client_ref".data :=
  ⟨by decide, (claim_C10 "client_ref".data (by decide)).1 "client_ref".data,
    (claim_C10 "client_ref".data (by decide)).2 [] [] "client_ref".data⟩

/-! ## Claim C5: single-use default -/

/-- Claim C5: with the default `destroy_after = true`, an unexpired vault is found
and substituted exactly once: the first call succeeds and removes the
vault; any second call reports Not-found (never a silent no-op). -/
theorem claim_C5 (X : Json) (vid : Str) (now : Nat) (store : Store)
    (vault : DeIdentificationMap) (hstore : alookup store vid = some vault)
    (hexp : ¬ vault.expires_at < now) :
    reIdentify X vid true now store =
      (.ok (walkAndReplace X
        (List.insertionSort tokenLenGE (tokenPairsOf vault))),
       eraseAll store vid) ∧
    (∀ (X' : Json) (now' : Nat),
      (reIdentify X' vid true now' (eraseAll store vid)).1 =
        .error .notFound) := by
  constructor
  · rw [reIdentify, hstore]
    dsimp only
    rw [if_neg hexp]
    rfl
  · intro X' now'
    rw [reIdentify, alookup_eraseAll]

theorem claim_C5_witness :
    (alookup [("v".data, (⟨"v".data, 0, 100, 0, [], []⟩ : DeIdentificationMap))]
      "v".data = some ⟨"v".data, 0, 100, 0, [], []⟩) ∧
    ¬ (100 : Nat) < 7 ∧
    (∀ (X' : Json) (now' : Nat),
      (reIdentify X' "v".data true now'
        (eraseAll [("v".data, (⟨"v".data, 0, 100, 0, [], []⟩ : DeIdentificationMap))]
          "v".data)).1 = .error .notFound) :=
  ⟨by decide, by decide,
    (claim_C5 Json.null "v".data 7
      [("v".data, ⟨"v".data, 0, 100, 0, [], []⟩)]
      ⟨"v".data, 0, 100, 0, [], []⟩ (by decide) (by decide)).2⟩

/-! ## Claim C6: expired exactly once -/

/-- Claim C6: a registered vault whose expiry has passed yields the Expired failure
and is removed as a side effect; every later call with that id yields
Not-found.  Neither failure is a silent success. -/
theorem claim_C6 (X : Json) (vid : Str) (now : Nat) (dflag : Bool)
    (store : Store) (vault : DeIdentificationMap)
    (hstore : alookup store vid = some vault)
    (hexp : vault.expires_at < now) :
    reIdentify X vid dflag now store = (.error .expired, eraseAll store vid) ∧
    (∀ (X' : Json) (now' : Nat) (dflag' : Bool),
      reIdentify X' vid dflag' now' (eraseAll store vid) =
        (.error .notFound, eraseAll store vid)) := by
  constructor
  · rw [reIdentify, hstore]
    dsimp only
    rw [if_pos hexp]
  · intro X' now' dflag'
    rw [reIdentify, alookup_eraseAll]

theorem claim_C6_witness :
    (alookup [("v".data, (⟨"v".data, 0, 3, 0, [], []⟩ : DeIdentificationMap))]
      "v".data = some ⟨"v".data, 0, 3, 0, [], []⟩) ∧
    (3 : Nat) < 9 ∧
    reIdentify Json.null "v".data true 9
      [("v".data, (⟨"v".data, 0, 3, 0, [], []⟩ : DeIdentificationMap))] =
      (.error .expired,
        eraseAll [("v".data, (⟨"v".data, 0, 3, 0, [], []⟩ : DeIdentificationMap))]
          "v".data) :=
  ⟨by decide, by decide,
    (claim_C6 Json.null "v".data 9 true
      [("v".data, ⟨"v".data, 0, 3, 0, [], []⟩)]
      ⟨"v".data, 0, 3, 0, [], []⟩ (by decide) (by decide)).1⟩

/-! ## Claim C7: tree-walker tokenization condition -/

theorem hTok_normal : ∀ (v : DeIdentificationMap) (cat : SensitiveFieldCategory)
    (s path : Str), VaultWF v →
    VaultWF (getOrCreateToken false (pyStrip s) cat path v).2 ∧
    (fun _ tk => isMintedTok tk) s
      (getOrCreateToken false (pyStrip s) cat path v).1 = true := by
  intro v cat s path hwf
  have h := getOrCreate_wf hwf (pyStrip s) cat path
  refine ⟨h.1, ?_⟩
  obtain ⟨c, i, hi, hEq⟩ := h.2.2.2.2
  show isMintedTok _ = true
  rw [hEq]
  exact isMintedTok_mkToken c hi

/-- Claim C7: the walker produces an isomorphic structure — identical everywhere
(same shape, same keys, nulls and non-string values and non-sensitive
strings unchanged, list elements never tokenized directly), except that
every dict entry whose key classifies and whose value is a non-empty
string carries a minted token; and the per-category counters equal the
structural site counts. -/
theorem claim_C7 (ttlSeconds : Nat) (extrasRaw : List Str) (D : Json)
    (vid : Str) (now : Nat) (store : Store) :
    sanShapeP (extrasRaw.map lowerStr) (fun _ tk => isMintedTok tk) D
      (deIdentify ttlSeconds extrasRaw false D vid now store).1.sanitized_data
      = true ∧
    ∀ c, (deIdentify ttlSeconds extrasRaw false D vid now store).1.field_counts c
      = countSites (extrasRaw.map lowerStr) c D := by
  constructor
  · exact (walk_shape false (extrasRaw.map lowerStr) (fun _ tk => isMintedTok tk)
      VaultWF (fun v cat s path h => hTok_normal v cat s path h) D
      ⟨⟨vid, now, now + ttlSeconds, 0, [], []⟩, fun _ => 0⟩ "$".data
      (vaultWF_init vid now (now + ttlSeconds))).1
  · intro c
    show (walkAndTokenize false (extrasRaw.map lowerStr) D
      ⟨⟨vid, now, now + ttlSeconds, 0, [], []⟩, fun _ => 0⟩ "$".data).2.counts c = _
    rw [walk_counts]
    simp

/-! ## Claim C8: redact-mode irreversibility and indistinguishability -/

theorem hTok_redact : ∀ (v : DeIdentificationMap) (cat : SensitiveFieldCategory)
    (s path : Str), (v.entries = [] ∧ v.reverse_index = []) →
    ((getOrCreateToken true (pyStrip s) cat path v).2.entries = [] ∧
      (getOrCreateToken true (pyStrip s) cat path v).2.reverse_index = []) ∧
    (fun _ tk => tk == "[REDACTED]".data) s
      (getOrCreateToken true (pyStrip s) cat path v).1 = true := by
  intro v cat s path hInv
  rw [getOrCreate_redact cat path hInv.2]
  exact ⟨hInv, by simp⟩

/-- Claim C8: redact mode records nothing reversible (the registered vault's entries
and reverse index are empty), every redacted site is the fixed sentinel,
and two inputs differing only in sensitive-site values sanitize
identically. -/
theorem claim_C8 (ttlSeconds : Nat) (extrasRaw : List Str) (D1 D2 : Json)
    (vid : Str) (now : Nat) (store : Store) :
    (∀ v, alookup (deIdentify ttlSeconds extrasRaw true D1 vid now store).2 vid
        = some v → v.entries = [] ∧ v.reverse_index = []) ∧
    sanShapeP (extrasRaw.map lowerStr) (fun _ tk => tk == "[REDACTED]".data) D1
      (deIdentify ttlSeconds extrasRaw true D1 vid now store).1.sanitized_data
      = true ∧
    (sensEquiv (extrasRaw.map lowerStr) D1 D2 = true →
      (deIdentify ttlSeconds extrasRaw true D1 vid now store).1.sanitized_data =
      (deIdentify ttlSeconds extrasRaw true D2 vid now store).1.sanitized_data) := by
  have hshape := walk_shape true (extrasRaw.map lowerStr)
    (fun _ tk => tk == "[REDACTED]".data)
    (fun v => v.entries = [] ∧ v.reverse_index = [])
    (fun v cat s path h => hTok_redact v cat s path h) D1
    ⟨⟨vid, now, now + ttlSeconds, 0, [], []⟩, fun _ => 0⟩ "$".data ⟨rfl, rfl⟩
  refine ⟨?_, hshape.1, ?_⟩
  · intro v hv
    rw [deIdentify] at hv
    dsimp only at hv
    rw [alookup, if_pos rfl] at hv
    injection hv with hv'
    rw [← hv']
    exact hshape.2
  · intro hequiv
    show (walkAndTokenize true (extrasRaw.map lowerStr) D1
        ⟨⟨vid, now, now + ttlSeconds, 0, [], []⟩, fun _ => 0⟩ "$".data).1 = _
    rw [walk_ni (extrasRaw.map lowerStr) D1 D2
      ⟨⟨vid, now, now + ttlSeconds, 0, [], []⟩, fun _ => 0⟩ "$".data hequiv rfl]
    rfl

theorem claim_C8_witness :
    sensEquiv [] (Json.obj [("name".data, Json.str "Alice Dupont".data),
        ("amount".data, Json.num 90)])
      (Json.obj [("name".data, Json.str "Bob Martin".data),
        ("amount".data, Json.num 90)]) = true ∧
    (deIdentify 1800 [] true
      (Json.obj [("name".data, Json.str "Alice Dupont".data),
        ("amount".data, Json.num 90)]) "v".data 0 []).1.sanitized_data =
    (deIdentify 1800 [] true
      (Json.obj [("name".data, Json.str "Bob Martin".data),
        ("amount".data, Json.num 90)]) "v".data 0 []).1.sanitized_data :=
  ⟨by decide,
    (claim_C8 1800 [] (Json.obj [("name".data, Json.str "Alice Dupont".data),
        ("amount".data, Json.num 90)])
      (Json.obj [("name".data, Json.str "Bob Martin".data),
        ("amount".data, Json.num 90)]) "v".data 0 []).2.2 (by decide)⟩

/-! ## Claim C2: value-keyed consistent mapping -/

/-- Claim C2: within one normal-mode session, two sensitive-site occurrences of the
same (stripped) original string receive the same token, and the registered
vault's reverse index binds each original value to exactly one token (its
keys are duplicate-free and the shared token is its unique image). -/
theorem claim_C2 (ttlSeconds : Nat) (extrasRaw : List Str) (D : Json)
    (vid : Str) (now : Nat) (store : Store) (s t1 t2 : Str)
    (h1 : Emits (extrasRaw.map lowerStr) D
      (deIdentify ttlSeconds extrasRaw false D vid now store).1.sanitized_data
      s t1)
    (h2 : Emits (extrasRaw.map lowerStr) D
      (deIdentify ttlSeconds extrasRaw false D vid now store).1.sanitized_data
      s t2) :
    t1 = t2 ∧
    ∀ v, alookup (deIdentify ttlSeconds extrasRaw false D vid now store).2 vid
        = some v →
      alookup v.reverse_index s = some t1 ∧
      (v.reverse_index.map Prod.fst).Nodup := by
  have hwf0 : VaultWF (⟨⟨vid, now, now + ttlSeconds, 0, [], []⟩,
      fun _ => 0⟩ : WalkSt).vault := vaultWF_init vid now (now + ttlSeconds)
  have hl1 := walk_emits (extrasRaw.map lowerStr) h1
    ⟨⟨vid, now, now + ttlSeconds, 0, [], []⟩, fun _ => 0⟩ "$".data hwf0 rfl
  have hl2 := walk_emits (extrasRaw.map lowerStr) h2
    ⟨⟨vid, now, now + ttlSeconds, 0, [], []⟩, fun _ => 0⟩ "$".data hwf0 rfl
  refine ⟨Option.some.inj (hl1.symm.trans hl2), ?_⟩
  intro v hv
  rw [deIdentify] at hv
  dsimp only at hv
  rw [alookup, if_pos rfl] at hv
  injection hv with hv'
  rw [← hv']
  exact ⟨hl1, (walk_wf (extrasRaw.map lowerStr) D
    ⟨⟨vid, now, now + ttlSeconds, 0, [], []⟩, fun _ => 0⟩ "$".data hwf0).ndR⟩

theorem claim_C2_witness :
    "ENTITY_001".data = "ENTITY_001".data ∧
    ∀ v, alookup (deIdentify 1800 [] false
        (Json.obj [("name".data, Json.str "John Smith".data),
          ("payee_name".data, Json.str "John Smith".data)]) "v".data 0 []).2
        "v".data = some v →
      alookup v.reverse_index "John Smith".data = some "ENTITY_001".data ∧
      (v.reverse_index.map Prod.fst).Nodup := by
  have hsan : (deIdentify 1800 [] false
      (Json.obj [("name".data, Json.str "John Smith".data),
        ("payee_name".data, Json.str "John Smith".data)]) "v".data 0
      []).1.sanitized_data =
      Json.obj [("name".data, Json.str "ENTITY_001".data),
        ("payee_name".data, Json.str "ENTITY_001".data)] := by
    with_unfolding_all rfl
  have hm1 : Emits [] (Json.obj [("name".data, Json.str "John Smith".data),
      ("payee_name".data, Json.str "John Smith".data)])
      (Json.obj [("name".data, Json.str "ENTITY_001".data),
        ("payee_name".data, Json.str "ENTITY_001".data)])
      "John Smith".data "ENTITY_001".data :=
    @Emits.site [] _ _ "name".data "John Smith".data "ENTITY_001".data
      SensitiveFieldCategory.name (List.Mem.head _) (by decide) (by decide)
  have hm2 : Emits [] (Json.obj [("name".data, Json.str "John Smith".data),
      ("payee_name".data, Json.str "John Smith".data)])
      (Json.obj [("name".data, Json.str "ENTITY_001".data),
        ("payee_name".data, Json.str "ENTITY_001".data)])
      "John Smith".data "ENTITY_001".data :=
    @Emits.site [] _ _ "payee_name".data "John Smith".data "ENTITY_001".data
      SensitiveFieldCategory.name (List.Mem.tail _ (List.Mem.head _))
      (by decide) (by decide)
  exact claim_C2 1800 [] (Json.obj [("name".data, Json.str "John Smith".data),
    ("payee_name".data, Json.str "John Smith".data)]) "v".data 0 []
    "John Smith".data "ENTITY_001".data "ENTITY_001".data
    (hsan.symm ▸ hm1) (hsan.symm ▸ hm2)

/-! ## Claim C9: cross-category token reuse -/

/-- Claim C9: the reverse-index lookup precedes the category check — a hit returns the
stored token for any category (and any mode) without touching the vault;
end to end, a value first seen under a category-A key and then under a
category-B key carries A's token (with A's prefix) at both positions, and
the single stored entry records category A. -/
theorem claim_C9 :
    (∀ (rm : Bool) (v : DeIdentificationMap) (realValue : Str)
      (cat cat' : SensitiveFieldCategory) (path path' : Str),
      (alookup v.reverse_index realValue).getD [] ≠ [] →
      getOrCreateToken rm realValue cat path v =
        ((alookup v.reverse_index realValue).getD [], v) ∧
      getOrCreateToken rm realValue cat path v =
        getOrCreateToken rm realValue cat' path' v) ∧
    (∀ (k1 k2 v : Str) (c1 c2 : SensitiveFieldCategory) (ttl : Nat)
      (vid : Str) (now : Nat) (store : Store),
      classifyField [] k1 = some c1 → classifyField [] k2 = some c2 →
      pyStrip v ≠ [] → k1 ≠ k2 →
      (deIdentify ttl [] false (Json.obj [(k1, Json.str v), (k2, Json.str v)])
        vid now store).1.sanitized_data =
        Json.obj [(k1, Json.str (mkToken c1 1)), (k2, Json.str (mkToken c1 1))] ∧
      ∀ w, alookup (deIdentify ttl [] false
          (Json.obj [(k1, Json.str v), (k2, Json.str v)]) vid now store).2 vid
          = some w →
        w.entries = [(mkToken c1 1,
          ⟨mkToken c1 1, pyStrip v, c1, "$".data ++ '.' :: k1⟩)]) := by
  constructor
  · intro rm v realValue cat cat' path path' h
    rw [getOrCreate_hit rm cat path h, getOrCreate_hit rm cat' path' h]
    exact ⟨rfl, rfl⟩
  · intro k1 k2 v c1 c2 ttl vid now store h1 h2 h3 _
    have hsite1 : siteInfo [] k1 (Json.str v) = some (c1, v) := siteInfo_str h1 h3
    have hsite2 : siteInfo [] k2 (Json.str v) = some (c2, v) := siteInfo_str h2 h3
    have hg1 : getOrCreateToken false (pyStrip v) c1 ("$".data ++ '.' :: k1)
        (⟨vid, now, now + ttl, 0, [], []⟩ : DeIdentificationMap) =
        (mkToken c1 1, ⟨vid, now, now + ttl, 1,
          [(mkToken c1 1, ⟨mkToken c1 1, pyStrip v, c1, "$".data ++ '.' :: k1⟩)],
          [(pyStrip v, mkToken c1 1)]⟩) := by
      with_unfolding_all rfl
    have hlook : alookup [(pyStrip v, mkToken c1 1)] (pyStrip v) =
        some (mkToken c1 1) := by
      rw [alookup, if_pos rfl]
    have hg2 : getOrCreateToken false (pyStrip v) c2 ("$".data ++ '.' :: k2)
        (⟨vid, now, now + ttl, 1,
          [(mkToken c1 1, ⟨mkToken c1 1, pyStrip v, c1, "$".data ++ '.' :: k1⟩)],
          [(pyStrip v, mkToken c1 1)]⟩ : DeIdentificationMap) =
        (mkToken c1 1, ⟨vid, now, now + ttl, 1,
          [(mkToken c1 1, ⟨mkToken c1 1, pyStrip v, c1, "$".data ++ '.' :: k1⟩)],
          [(pyStrip v, mkToken c1 1)]⟩) := by
      rw [getOrCreate_hit false c2 ("$".data ++ '.' :: k2)
        (by rw [hlook]; exact fun h => mkToken_ne_nil c1 1 (by simpa using h))]
      rw [hlook]
      rfl
    have hstep : walkObj false [] [(k1, Json.str v), (k2, Json.str v)]
        ⟨⟨vid, now, now + ttl, 0, [], []⟩, fun _ => 0⟩ "$".data =
        ([(k1, Json.str (mkToken c1 1)), (k2, Json.str (mkToken c1 1))],
          ⟨⟨vid, now, now + ttl, 1,
            [(mkToken c1 1, ⟨mkToken c1 1, pyStrip v, c1, "$".data ++ '.' :: k1⟩)],
            [(pyStrip v, mkToken c1 1)]⟩,
            bump (bump (fun _ => 0) c1) c2⟩) := by
      simp only [walkObj, hsite1, hsite2]
      rw [hg1]
      dsimp only
      rw [hg2]
    constructor
    · show (walkAndTokenize false (List.map lowerStr [])
        (Json.obj [(k1, Json.str v), (k2, Json.str v)])
        ⟨⟨vid, now, now + ttl, 0, [], []⟩, fun _ => 0⟩ "$".data).1 = _
      simp only [List.map_nil, walkAndTokenize, hstep]
    · intro w hw
      rw [deIdentify] at hw
      dsimp only at hw
      rw [alookup, if_pos rfl] at hw
      injection hw with hw'
      rw [← hw']
      show (walkAndTokenize false (List.map lowerStr [])
        (Json.obj [(k1, Json.str v), (k2, Json.str v)])
        ⟨⟨vid, now, now + ttl, 0, [], []⟩, fun _ => 0⟩ "$".data).2.vault.entries = _
      simp only [List.map_nil, walkAndTokenize, hstep]

theorem claim_C9_witness :
    ((alookup [("Bob".data, "ENTITY_001".data)] "Bob".data).getD [] ≠ []) ∧
    classifyField [] "name".data = some SensitiveFieldCategory.name ∧
    classifyField [] "email".data = some SensitiveFieldCategory.email ∧
    pyStrip "Bob".data ≠ [] ∧
    (deIdentify 1800 [] false (Json.obj [("name".data, Json.str "Bob".data),
      ("email".data, Json.str "Bob".data)]) "v".data 0 []).1.sanitized_data =
      Json.obj [("name".data, Json.str (mkToken .name 1)),
        ("email".data, Json.str (mkToken .name 1))] :=
  ⟨by decide, by decide, by decide, by decide,
    ((claim_C9.2 "name".data "email".data "Bob".data .name .email 1800
      "v".data 0 [] (by decide) (by decide) (by decide) (by decide)).1)⟩

/-! ## Claim C1: round trip -/

instance (Vf : DeIdentificationMap) (s : Str) : Decidable (StrOkFor Vf s) :=
  inferInstanceAs (Decidable (pyStrip s = s ∧
    ∀ p ∈ Vf.entries, containsSub p.2.token s = false))

/-- Claim C1, counterexample: the round-trip claim fails as stated — the tokenizer stores the
*stripped* value, so a sensitive field with surrounding whitespace is
restored to its trimmed form, not to the original.  Input
`{"name": " John "}` re-identifies to `{"name": "John"}`. -/
theorem claim_C1_counterexample :
    (reIdentify (deIdentify 1800 [] false
        (Json.obj [("name".data, Json.str " John ".data)]) "v".data 0
        []).1.sanitized_data "v".data false 0
      (deIdentify 1800 [] false
        (Json.obj [("name".data, Json.str " John ".data)]) "v".data 0 []).2).1 =
      .ok (Json.obj [("name".data, Json.str "John".data)]) ∧
    Json.obj [("name".data, Json.str " John ".data)] ≠
      Json.obj [("name".data, Json.str "John".data)] := by
  constructor
  · with_unfolding_all rfl
  · decide

/-- Claim C1 (amended): round trip — for inputs whose string values are strip-invariant
and contain no token of the session vault as a substring,
`re_identify(S, V, destroy_after := false)` called before expiry returns
exactly `D` (tokenized fields restored to their originals, everything else
untouched). -/
theorem claim_C1 (ttlSeconds : Nat) (extrasRaw : List Str) (D : Json)
    (vid : Str) (now now2 : Nat) (store : Store) (Vf : DeIdentificationMap)
    (hVf : alookup (deIdentify ttlSeconds extrasRaw false D vid now store).2 vid
      = some Vf)
    (hstr : ∀ s ∈ jsonStrs D, StrOkFor Vf s)
    (htime : now2 ≤ now + ttlSeconds) :
    reIdentify
      (deIdentify ttlSeconds extrasRaw false D vid now store).1.sanitized_data
      vid false now2 (deIdentify ttlSeconds extrasRaw false D vid now store).2 =
      (.ok D, (deIdentify ttlSeconds extrasRaw false D vid now store).2) := by
  have hVf2 := hVf
  rw [deIdentify] at hVf2
  dsimp only at hVf2
  rw [alookup, if_pos rfl] at hVf2
  injection hVf2 with hVfEq
  have hwf0 : VaultWF (⟨⟨vid, now, now + ttlSeconds, 0, [], []⟩,
      fun _ => 0⟩ : WalkSt).vault := vaultWF_init vid now (now + ttlSeconds)
  have hwfF : VaultWF Vf := hVfEq ▸ walk_wf (extrasRaw.map lowerStr) D
    ⟨⟨vid, now, now + ttlSeconds, 0, [], []⟩, fun _ => 0⟩ "$".data hwf0
  have hexpF : Vf.expires_at = now + ttlSeconds := by
    rw [← hVfEq]
    exact (walk_ext false (extrasRaw.map lowerStr) D
      ⟨⟨vid, now, now + ttlSeconds, 0, [], []⟩, fun _ => 0⟩ "$".data).2.2.2
  rw [reIdentify, hVf]
  dsimp only
  rw [if_neg (by rw [hexpF]; omega)]
  have hext : VaultExt
      (walkAndTokenize false (extrasRaw.map lowerStr) D
        ⟨⟨vid, now, now + ttlSeconds, 0, [], []⟩, fun _ => 0⟩ "$".data).2.vault
      Vf := hVfEq ▸ VaultExt.rfl _
  have hrt := walk_rt (extrasRaw.map lowerStr) D
    ⟨⟨vid, now, now + ttlSeconds, 0, [], []⟩, fun _ => 0⟩ "$".data hwf0 Vf hwfF
    hext hstr
  show (Except.ok (walkAndReplace
    (walkAndTokenize false (extrasRaw.map lowerStr) D
      ⟨⟨vid, now, now + ttlSeconds, 0, [], []⟩, fun _ => 0⟩ "$".data).1
    (List.insertionSort tokenLenGE (tokenPairsOf Vf))), _) = _
  rw [hrt]
  rfl

theorem claim_C1_witness :
    (7 : Nat) ≤ 0 + 1800 ∧
    reIdentify (deIdentify 1800 [] false
        (Json.obj [("name".data, Json.str "John".data),
          ("amount".data, Json.num 5)]) "v".data 0 []).1.sanitized_data
      "v".data false 7
      (deIdentify 1800 [] false
        (Json.obj [("name".data, Json.str "John".data),
          ("amount".data, Json.num 5)]) "v".data 0 []).2 =
      (.ok (Json.obj [("name".data, Json.str "John".data),
        ("amount".data, Json.num 5)]),
       (deIdentify 1800 [] false
        (Json.obj [("name".data, Json.str "John".data),
          ("amount".data, Json.num 5)]) "v".data 0 []).2) :=
  ⟨by decide,
    claim_C1 1800 [] (Json.obj [("name".data, Json.str "John".data),
      ("amount".data, Json.num 5)]) "v".data 0 7 [] _
      (by with_unfolding_all rfl) (by decide) (by decide)⟩

/-! ## Claim C3: substring-safe replacement -/

/-- Claim C3: substring safety of the descending-length substitution — for two stored
tokens with one a proper prefix of the other, a text holding the longer
token (at the front) and the shorter token (at the end, as exact value or
inside longer text `m`) is restored with each occurrence replaced by its
own original — no residual fragment of the longer token survives a partial
match of the shorter one.  The side conditions say only that the remaining
tokens do not occur in the text or in the substituted originals. -/
theorem claim_C3 (vid : Str) (now : Nat) (dflag : Bool) (store : Store)
    (vault : DeIdentificationMap) (t1 r1 t2 r2 m : Str)
    (hstore : alookup store vid = some vault)
    (hexp : ¬ vault.expires_at < now)
    (hnd : ((tokenPairsOf vault).map Prod.fst).Nodup)
    (hmem1 : (t1, r1) ∈ tokenPairsOf vault)
    (hmem2 : (t2, r2) ∈ tokenPairsOf vault)
    (hpfx : isPfxOf t1 t2 = true) (hne : t1 ≠ t2)
    (hu : uniqueHead t1 = true)
    (hc1 : containsSub t2 (m ++ t1) = false)
    (hc2 : containsSub t1 (r2 ++ m) = false)
    (hothers : ∀ p ∈ tokenPairsOf vault, p.1 ≠ t1 → p.1 ≠ t2 →
      containsSub p.1 (t2 ++ (m ++ t1)) = false ∧
      containsSub p.1 (r2 ++ (m ++ t1)) = false ∧
      containsSub p.1 (r2 ++ (m ++ r1)) = false) :
    reIdentify (Json.str (t2 ++ (m ++ t1))) vid dflag now store =
      (.ok (Json.str (r2 ++ (m ++ r1))),
        if dflag = true then eraseAll store vid else store) := by
  have hlen12 : t1.length < t2.length := by
    have hle := (isPfxOf_iff.mp hpfx).length_le
    have hnee : t1.length ≠ t2.length :=
      fun h => hne ((isPfxOf_iff.mp hpfx).sublist.eq_of_length h)
    omega
  have ht2ne : t2 ≠ [] := by
    intro h
    rw [h] at hlen12
    simp at hlen12
  have ht1ne : t1 ≠ [] := uniqueHead_ne_nil hu
  obtain ⟨A, B, hAB, hA2, hB2, hA2mem⟩ := sortedPairs_decomp hnd hmem2
  have hperm := List.perm_insertionSort tokenLenGE (tokenPairsOf vault)
  have hmem1s : (t1, r1) ∈ A ++ (t2, r2) :: B := by
    rw [← hAB]
    exact hperm.mem_iff.mpr hmem1
  have h1B : (t1, r1) ∈ B := by
    rcases List.mem_append.mp hmem1s with h | h
    · exfalso
      have := (hA2 _ h).1
      simp at this
      omega
    · rcases List.mem_cons.mp h with h | h
      · exact absurd (congrArg Prod.fst h) hne
      · exact h
  obtain ⟨C, Dl, hCD⟩ := List.append_of_mem h1B
  rw [hCD] at hAB hB2
  have hndS : ((A ++ (t2, r2) :: (C ++ (t1, r1) :: Dl)).map Prod.fst).Nodup := by
    rw [← hAB]
    exact ((hperm.map Prod.fst).nodup_iff).mpr hnd
  simp only [List.map_append, List.map_cons] at hndS
  have hn1 := (List.nodup_append.mp hndS).2.1
  rw [List.nodup_cons] at hn1
  have hn2 := List.nodup_append.mp hn1.2
  have ht1C : ∀ p ∈ C, p.1 ≠ t1 := by
    intro p hp hEq
    exact hn2.2.2 (List.mem_map_of_mem Prod.fst hp)
      (by rw [hEq]; exact List.mem_cons_self _ _)
  have ht1D : ∀ p ∈ Dl, p.1 ≠ t1 := by
    have hn3 := hn2.2.1
    rw [List.nodup_cons] at hn3
    intro p hp hEq
    exact hn3.1 (by rw [← hEq]; exact List.mem_map_of_mem Prod.fst hp)
  have hstep2 : pyReplace t2 r2 (t2 ++ (m ++ t1)) = r2 ++ (m ++ t1) := by
    rw [pyReplace, if_neg (by simp [ht2ne]), replLoop_append_pfx r2 (m ++ t1) ht2ne,
      replLoop_not_contains r2 hc1]
  have hstep1 : pyReplace t1 r1 (r2 ++ (m ++ t1)) = r2 ++ (m ++ r1) := by
    rw [← List.append_assoc, pyReplace, if_neg (by simp [ht1ne])]
    rw [replLoop_append_sfx r1 hu (r2 ++ m) hc2, List.append_assoc]
  have hAno : replaceTokensInString (t2 ++ (m ++ t1)) A = t2 ++ (m ++ t1) :=
    rts_no_op (fun p hp => by
      refine (hothers p (hA2mem p hp) ?_ (hA2 p hp).2).1
      intro hEq
      have hlenA := (hA2 p hp).1
      rw [hEq] at hlenA
      simp at hlenA
      omega)
  have hCno : replaceTokensInString (r2 ++ (m ++ t1)) C = r2 ++ (m ++ t1) :=
    rts_no_op (fun p hp => by
      have hpB := hB2 p (List.mem_append_left _ hp)
      exact (hothers p hpB.1 (ht1C p hp) hpB.2).2.1)
  have hDno : replaceTokensInString (r2 ++ (m ++ r1)) Dl = r2 ++ (m ++ r1) :=
    rts_no_op (fun p hp => by
      have hpB := hB2 p (List.mem_append_right _ (List.mem_cons_of_mem _ hp))
      exact (hothers p hpB.1 (ht1D p hp) hpB.2).2.2)
  have hcont1 : containsSub t1 (r2 ++ (m ++ t1)) = true := by
    rw [← List.append_assoc]
    exact containsSub_append_right (r2 ++ m) t1
  have hmain : replaceTokensInString (t2 ++ (m ++ t1))
      (List.insertionSort tokenLenGE (tokenPairsOf vault)) = r2 ++ (m ++ r1) := by
    rw [hAB, rts_append, hAno, rts_cons,
      if_pos (containsSub_append_left t2 (m ++ t1)), hstep2, rts_append, hCno,
      rts_cons, if_pos hcont1, hstep1, hDno]
  rw [reIdentify, hstore]
  dsimp only
  rw [if_neg hexp]
  show (Except.ok (Json.str (replaceTokensInString (t2 ++ (m ++ t1))
    (List.insertionSort tokenLenGE (tokenPairsOf vault)))), _) = _
  rw [hmain]

theorem claim_C3_witness :
    isPfxOf "ENTITY_100".data "ENTITY_1000".data = true ∧
    "ENTITY_100".data ≠ "ENTITY_1000".data ∧
    reIdentify (Json.str ("ENTITY_1000".data ++
        (" contacted ".data ++ "ENTITY_100".data)))
      "v".data false 0
      [("v".data, (⟨"v".data, 0, 100, 2,
        [("ENTITY_100".data,
          ⟨"ENTITY_100".data, "Alice".data, .name, "$".data⟩),
         ("ENTITY_1000".data,
          ⟨"ENTITY_1000".data, "Bob".data, .name, "$".data⟩)], []⟩ :
          DeIdentificationMap))] =
      (.ok (Json.str ("Bob".data ++ (" contacted ".data ++ "Alice".data))),
        if false = true then
          eraseAll [("v".data, (⟨"v".data, 0, 100, 2,
            [("ENTITY_100".data,
              ⟨"ENTITY_100".data, "Alice".data, .name, "$".data⟩),
             ("ENTITY_1000".data,
              ⟨"ENTITY_1000".data, "Bob".data, .name, "$".data⟩)], []⟩ :
              DeIdentificationMap))] "v".data
        else [("v".data, (⟨"v".data, 0, 100, 2,
          [("ENTITY_100".data,
            ⟨"ENTITY_100".data, "Alice".data, .name, "$".data⟩),
           ("ENTITY_1000".data,
            ⟨"ENTITY_1000".data, "Bob".data, .name, "$".data⟩)], []⟩ :
            DeIdentificationMap))]) :=
  ⟨by decide, by decide,
    claim_C3 "v".data 0 false
      [("v".data, ⟨"v".data, 0, 100, 2,
        [("ENTITY_100".data,
          ⟨"ENTITY_100".data, "Alice".data, .name, "$".data⟩),
         ("ENTITY_1000".data,
          ⟨"ENTITY_1000".data, "Bob".data, .name, "$".data⟩)], []⟩)]
      ⟨"v".data, 0, 100, 2,
        [("ENTITY_100".data,
          ⟨"ENTITY_100".data, "Alice".data, .name, "$".data⟩),
         ("ENTITY_1000".data,
          ⟨"ENTITY_1000".data, "Bob".data, .name, "$".data⟩)], []⟩
      "ENTITY_100".data "Alice".data "ENTITY_1000".data "Bob".data
      " contacted ".data
      (by decide) (by decide) (by decide) (by decide) (by decide) (by decide)
      (by decide) (by decide) (by decide) (by decide) (by decide)⟩
